import Mathlib

/-!
# Verification of the minidex segmented index

A shallow embedding of the `minidex` crate (`src/minidex/src/lib.rs`,
`src/minidex/src/opstamp.rs`, `src/minidex/src/segmented_index.rs`,
`src/minidex/src/segmented_index/compactor.rs`) together with the entry codec
and matcher of `src/core/src` (`entry.rs`, `matcher.rs`), which the claims
designate as the source for those symbols.

Modelling conventions:
* Machine integers (`u64`, `usize` on a 64-bit little-endian host) are `Nat`
  with explicit `% 2 ^ 64` / `% 2 ^ 63` where the bit-level operations of the
  source depend on the width (tombstone bit, wrapping adds, byte truncation).
* Rust panics (`expect`, out-of-range slicing) are modelled by the `Panics`
  monad below; a value `Panics.panics msg` is a thread panic, distinct from a
  returned error value.
* The `fst` and `regex-automata` crates are external collaborators; the spec
  describes them only by contract.  An FST map is modelled as its list of
  `(key, offset)` pairs in stream order, and the compiled DFA of the pattern
  built by `Index::search` is modelled by the language of that pattern
  (case-insensitivity is modelled on ASCII via `Char.toLower`, matching the
  model of `str::to_lowercase`).
-/

/-- Outcome of Rust code that can panic: either a normal return or a thread
panic carrying the panic message.  This models `expect`/slice-index panics,
which abort the surrounding thread instead of returning an error value. -/
inductive Panics (α : Type) where
  | panics (msg : String)
  | returns (val : α)
deriving Repr, DecidableEq

namespace Panics

def map {α β : Type} (f : α → β) : Panics α → Panics β
  | .panics m => .panics m
  | .returns a => .returns (f a)

def bind {α β : Type} : Panics α → (α → Panics β) → Panics β
  | .panics m, _ => .panics m
  | .returns a, f => f a

instance : Monad Panics where
  pure := .returns
  map := Panics.map
  bind := Panics.bind

end Panics

/-- `Kind` from `src/minidex/src/common.rs`: `#[repr(u8)] enum Kind { File,
Directory, Symlink }` with the derived `Ord` (declaration order). -/
inductive Kind where
  | File
  | Directory
  | Symlink
deriving Repr, DecidableEq

/-- Discriminant of `Kind` (`impl Into<u8> for Kind`). -/
def Kind.toByte : Kind → Nat
  | .File => 0
  | .Directory => 1
  | .Symlink => 2

/-- `impl From<u8> for Kind`.  Bytes other than `0`, `1`, `2` hit
`unreachable!()` in the source (and are undefined behaviour for the transmute
path of `core/src/entry.rs`); the model maps them to `File`.  No theorem in
this file depends on that choice. -/
def Kind.ofByte (b : Nat) : Kind :=
  if b = 1 then .Directory else if b = 2 then .Symlink else .File

namespace Opstamp

/-- `Opstamp::TOMBSTONE_BIT = 1 << 63`. -/
def TOMBSTONE_BIT : Nat := 2 ^ 63

/-- `Opstamp::insertion(seq) = seq & !TOMBSTONE_BIT`.  For a `u64` argument
this clears bit 63, i.e. reduces the value `mod 2 ^ 63`. -/
def insertion (seq : Nat) : Nat := seq % 2 ^ 63

/-- `Opstamp::deletion(seq) = seq | TOMBSTONE_BIT`.  For a `u64` argument this
sets bit 63: the result is `seq` with bits 0–62 kept and bit 63 forced on. -/
def deletion (seq : Nat) : Nat := seq % 2 ^ 63 + 2 ^ 63

/-- `Opstamp::sequence() = self.0 & !TOMBSTONE_BIT` (bits 0–62). -/
def sequence (x : Nat) : Nat := x % 2 ^ 63

/-- `Opstamp::is_deletion() = (self.0 & TOMBSTONE_BIT) != 0` (bit 63 of the
`u64` value). -/
def is_deletion (x : Nat) : Bool := decide (x % 2 ^ 64 ≥ 2 ^ 63)

end Opstamp

/-- `IndexEntry` from `core/src/entry.rs` (also the payload type of the
`minidex` crate): opstamp, kind, reserved `content_type`, and two microsecond
timestamps.  The numeric fields are `u64`/`u32` values, represented as `Nat`. -/
structure IndexEntry where
  opstamp : Nat
  kind : Kind
  content_type : Nat
  last_modified : Nat
  last_accessed : Nat
deriving Repr, DecidableEq

/-- `IndexEntry::SIZE = size_of::<IndexEntry>() = 32` for the `#[repr(C)]`
layout `{u64, u8, 3 bytes padding, u32, u64, u64}`. -/
def ENTRY_SIZE : Nat := 32

/-- Little-endian byte encoding of the low `n` bytes of `k`. -/
def natToLE : Nat → Nat → List Nat
  | 0, _ => []
  | n + 1, k => k % 256 :: natToLE n (k / 256)

/-- Value of a little-endian byte list. -/
def natFromLE : List Nat → Nat
  | [] => 0
  | b :: t => b + 256 * natFromLE t

/-- Byte image of an `IndexEntry` in the `#[repr(C)]` layout on a little-endian
host: opstamp at offset 0, kind byte at 8, three padding bytes at 9–11
(modelled as zero; the transmute in the source leaves them uninitialised),
`content_type` at 12, `last_modified` at 16, `last_accessed` at 24. -/
def encodeEntry (e : IndexEntry) : List Nat :=
  natToLE 8 e.opstamp ++ [e.kind.toByte] ++ [0, 0, 0] ++ natToLE 4 e.content_type
    ++ natToLE 8 e.last_modified ++ natToLE 8 e.last_accessed

/-- Reading an `IndexEntry` back from a 32-byte buffer in the layout above
(padding bytes are ignored, as the transmute ignores them). -/
def decodeEntry (b : List Nat) : IndexEntry :=
  { opstamp := natFromLE (b.take 8)
    kind := Kind.ofByte (b.getD 8 0)
    content_type := natFromLE ((b.drop 12).take 4)
    last_modified := natFromLE ((b.drop 16).take 8)
    last_accessed := natFromLE ((b.drop 24).take 8) }

/-- `IndexEntry::to_bytes` (`core/src/entry.rs`): the byte image of the entry.
The source implements it as `mem::transmute`; this is its value on a
little-endian host with the padding bytes taken as zero. -/
def IndexEntry.to_bytes (e : IndexEntry) : List Nat := encodeEntry e

/-- `IndexEntry::from_bytes` (`core/src/entry.rs` lines 22–25):
`bytes.try_into().expect("invalid entry size")` followed by a transmute.
`try_into` to `[u8; 32]` succeeds iff the slice length is exactly 32; any
other length makes `expect` panic with message `"invalid entry size"`. -/
def IndexEntry.from_bytes (bytes : List Nat) : Panics IndexEntry :=
  if bytes.length = ENTRY_SIZE then .returns (decodeEntry bytes)
  else .panics "invalid entry size"

/-- A segment (`src/minidex/src/segmented_index.rs`): the FST map of
`<base>.seg` modelled as its `(key, offset)` pairs in stream order, and the
byte blob of `<base>.dat`. -/
structure Segment where
  fst : List (String × Nat)
  data : List Nat
deriving Repr, DecidableEq

/-- `Segment::get_entry` (`segmented_index.rs` lines 41–50):
`start = offset as usize; end = start + ENTRY_SIZE` — a wrapping `usize` add on
a 64-bit host — then `None` if `end > data.len()`, else
`from_bytes(&data[start..end])`.  When the add wraps, `start > end` and the
slice expression panics. -/
def Segment.get_entry (s : Segment) (offset : Nat) : Panics (Option IndexEntry) :=
  if (offset % 2 ^ 64 + ENTRY_SIZE) % 2 ^ 64 > s.data.length then .returns none
  else if offset % 2 ^ 64 ≤ (offset % 2 ^ 64 + ENTRY_SIZE) % 2 ^ 64 then
    (IndexEntry.from_bytes
      ((s.data.take ((offset % 2 ^ 64 + ENTRY_SIZE) % 2 ^ 64)).drop (offset % 2 ^ 64))).map some
  else .panics "slice index starts at larger index than it ends at"

/-- Observer: the `(key, entry)` pairs a segment stores, i.e. the FST pairs at
which `get_entry` returns an entry. -/
def Segment.storedEntries (s : Segment) : List (String × IndexEntry) :=
  s.fst.filterMap fun p =>
    match s.get_entry p.2 with
    | .returns (some e) => some (p.1, e)
    | _ => none

/-! ## The matcher

`Index::search` (`src/minidex/src/lib.rs` lines 144–155) builds the pattern
`"(?i)(?s).*"` and then, for every whitespace-separated word of the query,
appends each character of the word in regex-escaped form followed by `".*"`.
The words of a query and the language of that pattern are modelled below; the
DFA built by `RegexMatcher::new` and consulted by `RegexMatcher::is_match`
(`core/src/matcher.rs`) is modelled by that language, per the contract the
spec assigns to the regex library.  Case-insensitivity (`(?i)`) is modelled on
ASCII via `Char.toLower`. -/

/-- Case folding of one character (model of `(?i)` and `str::to_lowercase`,
restricted to ASCII). -/
def foldc (c : Char) : Char := c.toLower

/-- `str::to_lowercase`, modelled as per-character ASCII folding. -/
def foldStr (s : String) : String := ⟨s.data.map foldc⟩

/-- Accumulating splitter behind `wordsOf`: `cur` is the reversed current
word. -/
def splitWsAux : List Char → List Char → List (List Char)
  | [], cur => if cur.isEmpty then [] else [cur.reverse]
  | c :: t, cur =>
    if c.isWhitespace then
      if cur.isEmpty then splitWsAux t [] else cur.reverse :: splitWsAux t []
    else splitWsAux t (c :: cur)

/-- `query.split_whitespace()`: the non-empty maximal runs of non-whitespace
characters, as character lists (whitespace modelled by `Char.isWhitespace`). -/
def wordsOf (q : String) : List (List Char) := splitWsAux q.data []

/-- If `s` starts with the word `w` (upto case folding), the rest of `s`
after that prefix. -/
def stripCIPrefix : List Char → List Char → Option (List Char)
  | [], s => some s
  | _ :: _, [] => none
  | c :: w, d :: s => if foldc c = foldc d then stripCIPrefix w s else none

/-- The rest of `s` after the leftmost case-insensitive occurrence of the word
`w`, if `w` occurs in `s` at all. -/
def findCI (w : List Char) : List Char → Option (List Char)
  | [] => stripCIPrefix w []
  | d :: t =>
    match stripCIPrefix w (d :: t) with
    | some r => some r
    | none => findCI w t

/-- Whether the pattern `.*w₁.*w₂.* … .*` (case-insensitive, dotall) matches
`s`: each word is searched as a contiguous run, in order, greedily from the
left. -/
def matchWords : List (List Char) → List Char → Bool
  | [], _ => true
  | w :: ws, s =>
    match findCI w s with
    | some r => matchWords ws r
    | none => false

/-- `RegexMatcher::is_match` on the pattern `Index::search` compiles from
query `q`, applied to key `k`: the language of
`(?i)(?s).*⟨word₁⟩.*⟨word₂⟩.*…` contains `k`. -/
def isMatch (q k : String) : Bool := matchWords (wordsOf q) k.data

/-- Two character lists that are equal after case folding. -/
def ciEq (w w' : List Char) : Prop := w.map foldc = w'.map foldc

/-- The words occur in `s`, in order, as contiguous case-insensitive
substrings: `s` splits as `gap₀ ++ w₁' ++ gap₁ ++ … ++ wₙ' ++ gapₙ` with each
`wᵢ'` case-equal to `wᵢ`.  This is the language of the pattern built by
`Index::search` (spec-side reading of the construction). -/
inductive OccursInOrder : List (List Char) → List Char → Prop
  | nil (s : List Char) : OccursInOrder [] s
  | cons (pre w' rest : List Char) (w : List Char) (ws : List (List Char)) :
      ciEq w w' → OccursInOrder ws rest → OccursInOrder (w :: ws) (pre ++ w' ++ rest)

/-- Executable case-insensitive subsequence test: the characters of `w` appear
in `s` in order, not necessarily contiguously (the spec's wording of the
matcher property). -/
def isSubseqCI : List Char → List Char → Bool
  | [], _ => true
  | _ :: _, [] => false
  | c :: w, d :: s => if foldc c = foldc d then isSubseqCI w s else isSubseqCI (c :: w) s

/-! ## `Index::search` (`src/minidex/src/lib.rs` lines 144–213)

The search takes the memory overlay (the `BTreeMap<String, IndexEntry>`, as
its ascending association list) and the registered segments, builds the
candidate table keyed by the lowercased path, streams every segment through
the matcher, drops tombstones and sorts.  The candidate `HashMap` is modelled
as an association list; the hash map's iteration order is immaterial because
the results are sorted afterwards. -/

/-- Candidate table: `(folded key, (path, entry))` triples. -/
abbrev Cands := List (String × String × IndexEntry)

/-- `candidates.entry(key).and_modify(..).or_insert((path, entry))`: if `key`
is present, replace its `(path, entry)` only when the new opstamp sequence is
strictly greater; otherwise append the new binding. -/
def updCandidates : Cands → String → String → IndexEntry → Cands
  | [], key, path, e => [(key, path, e)]
  | (k', p', e') :: t, key, path, e =>
    if k' = key then
      (if Opstamp.sequence e.opstamp > Opstamp.sequence e'.opstamp then (k', path, e)
       else (k', p', e')) :: t
    else (k', p', e') :: updCandidates t key path e

/-- The first loop of `search`: every overlay entry whose path matches the
pattern is offered to the candidate table under its lowercased path. -/
def memPass (q : String) (mem : List (String × IndexEntry)) : Cands :=
  mem.foldl
    (fun c pe => if isMatch q pe.1 then updCandidates c (foldStr pe.1) pe.1 pe.2 else c) []

/-- The per-segment loop of `search`: the FST stream yields the `(term,
offset)` pairs accepted by the automaton (per the matcher contract, exactly
the keys in the pattern's language); each hit is fetched with `get_entry` —
whose panic propagates — and offered to the candidate table; a `None` from
`get_entry` is skipped. -/
def streamSeg (q : String) (seg : Segment) : List (String × Nat) → Cands → Panics Cands
  | [], c => .returns c
  | (term, off) :: t, c =>
    if isMatch q term then
      match seg.get_entry off with
      | .panics m => .panics m
      | .returns none => streamSeg q seg t c
      | .returns (some e) => streamSeg q seg t (updCandidates c (foldStr term) term e)
    else streamSeg q seg t c

/-- The outer loop over segments. -/
def segsPass (q : String) : List Segment → Cands → Panics Cands
  | [], c => .returns c
  | seg :: rest, c =>
    match streamSeg q seg seg.fst c with
    | .panics m => .panics m
    | .returns c' => segsPass q rest c'

/-- `SearchResult` (`src/minidex/src/lib.rs` lines 266–272).  `PathBuf` is
modelled as the key string. -/
structure SearchResult where
  path : String
  kind : Kind
  last_modified : Nat
  last_accessed : Nat
deriving Repr, DecidableEq

/-- Rust's `Ord::cmp` on integers and strings, `compare-by-less-then-eq`. -/
def natCmp (a b : Nat) : Ordering :=
  if a < b then .lt else if a = b then .eq else .gt

/-- Comparison of paths (`PathBuf` keys are modelled as strings, compared
lexicographically). -/
def strCmp (a b : String) : Ordering :=
  if a < b then .lt else if a = b then .eq else .gt

/-- `impl Ord for SearchResult` (`lib.rs` lines 274–282):
`other.last_modified.cmp(&self.last_modified)` — descending — then kind in
declaration order, then path ascending. -/
def SearchResult.cmp (a b : SearchResult) : Ordering :=
  ((natCmp b.last_modified a.last_modified).then
    (natCmp a.kind.toByte b.kind.toByte)).then
    (strCmp a.path b.path)

/-- The `≤` of `SearchResult`'s order, as used by `results.sort()`. -/
def SearchResult.le (a b : SearchResult) : Bool := decide (a.cmp b ≠ .gt)

/-- `Index::search`: candidate collection, tombstone filtering, sort. -/
def Index.search (mem : List (String × IndexEntry)) (segs : List Segment)
    (q : String) : Panics (List SearchResult) :=
  match segsPass q segs (memPass q mem) with
  | .panics m => .panics m
  | .returns cands =>
    let results : List SearchResult := cands.filterMap fun c =>
      if Opstamp.is_deletion c.2.2.opstamp then none
      else some ⟨c.2.1, c.2.2.kind, c.2.2.last_modified, c.2.2.last_accessed⟩
    .returns (results.mergeSort SearchResult.le)

/-- All `(path, entry)` pairs the index state holds: the overlay plus the
stored entries of every segment. -/
def sourceEntries (mem : List (String × IndexEntry)) (segs : List Segment) :
    List (String × IndexEntry) :=
  mem ++ segs.flatMap Segment.storedEntries

/-- The pairs whose path lowercases to the folded key `K`. -/
def entriesForFolded (mem : List (String × IndexEntry)) (segs : List Segment)
    (K : String) : List (String × IndexEntry) :=
  (sourceEntries mem segs).filter fun p => foldStr p.1 = K

/-- The pairs whose path is exactly `K`. -/
def entriesForExact (mem : List (String × IndexEntry)) (segs : List Segment)
    (K : String) : List (String × IndexEntry) :=
  (sourceEntries mem segs).filter fun p => p.1 = K

/-! ## `SegmentedIndex::write_segment` (`src/minidex/src/segmented_index.rs`
lines 121–171) and the directory it writes into.

The loop appends each entry's bytes to the `.dat` writer, inserts
`(key, current_offset)` into the FST builder and advances the offset by the
byte count.  The files are modelled at the abstraction level the claims use:
the `.seg` file by the FST pairs the builder receives, the `.dat` file by its
bytes. -/

/-- The body of the `for (path, entry) in it` loop: returns the `.dat` bytes
and the FST `(key, offset)` pairs produced from the iterator, starting at
`current_offset = off`. -/
def writeSegLoop : List (String × IndexEntry) → Nat → List Nat × List (String × Nat)
  | [], _ => ([], [])
  | (k, e) :: t, off =>
    let bytes := e.to_bytes
    let rest := writeSegLoop t (off + bytes.length)
    (bytes ++ rest.1, (k, off) :: rest.2)

/-- The segment produced by `write_segment` from an iterator (offsets start at
0). -/
def writeSegmentData (l : List (String × IndexEntry)) : Segment :=
  ⟨(writeSegLoop l 0).2, (writeSegLoop l 0).1⟩

/-- Contents of a file in the index directory: a `.seg` FST file (modelled by
the map it encodes) or a `.dat` blob. -/
inductive FileData where
  | seg (pairs : List (String × Nat))
  | dat (bytes : List Nat)
deriving Repr, DecidableEq

/-- The index directory as an association list from file name to contents. -/
abbrev FileSys := List (String × FileData)

/-- `File::create` semantics: truncate an existing file or create it. -/
def FileSys.create : FileSys → String → FileData → FileSys
  | [], n, d => [(n, d)]
  | (n', d') :: t, n, d =>
    if n' = n then (n, d) :: t else (n', d') :: FileSys.create t n d

/-- Errors surfaced by `write_segment` in the model. -/
inductive WriteSegmentError where
  | alreadyExists
deriving Repr, DecidableEq

/-- `SegmentedIndex::write_segment` at the file-system level.  The source
opens `<base>.seg` with `File::create_new` — failing if that file exists —
and `<base>.dat` with `File::create`, which truncates any existing file. -/
def SegmentedIndex.write_segment (fs : FileSys) (base : String)
    (it : List (String × IndexEntry)) : Except WriteSegmentError FileSys :=
  let segName := base ++ ".seg"
  let datName := base ++ ".dat"
  if (fs.lookup segName).isSome then .error .alreadyExists
  else
    .ok ((fs.create datName (.dat (writeSegLoop it 0).1)).create segName
          (.seg (writeSegLoop it 0).2))

/-! ## `merge_segments` (`src/minidex/src/segmented_index/compactor.rs`
lines 88–157)

The `fst` crate's union stream yields, in ascending key order, each key
present in any input FST together with the `(segment_index, offset)` pairs at
which it appears (grouped, one yield per key; contributions in segment-index
order).  That stream is modelled by `allKeys`/`unionAt`. -/

/-- The keys of the union stream: every key of every input FST, once each
(order: sorted; the claims are insensitive to it). -/
def allKeys (segs : List Segment) : List String :=
  ((segs.flatMap fun s => s.fst.map Prod.fst).dedup).mergeSort fun a b => decide (a ≤ b)

/-- The `indexed_values` for one key: the `(segment_index, offset)` pairs of
the segments whose FST contains the key, in segment order. -/
def unionAt (segs : List Segment) (k : String) : List (Nat × Nat) :=
  segs.enum.filterMap fun p => (p.2.fst.lookup k).map fun off => (p.1, off)

/-- The inner `for iv in indexed_values` loop: fetch each candidate entry with
`get_entry` (skipping misses) and keep the one with the strictly highest
opstamp sequence (first contributor wins ties).  `segments[iv.index]` panics
if the index is out of range. -/
def pickHighest (segs : List Segment) :
    List (Nat × Nat) → Option IndexEntry → Panics (Option IndexEntry)
  | [], acc => .returns acc
  | (i, off) :: t, acc =>
    match segs.get? i with
    | none => .panics "index out of bounds"
    | some seg =>
      match seg.get_entry off with
      | .panics m => .panics m
      | .returns none => pickHighest segs t acc
      | .returns (some e) =>
        match acc with
        | none => pickHighest segs t (some e)
        | some h =>
          pickHighest segs t
            (if Opstamp.sequence e.opstamp > Opstamp.sequence h.opstamp then some e
             else some h)

/-- The `while let Some((key, indexed_values)) = stream.next()` loop: per key,
pick the highest-opstamp entry; skip the key if it is a tombstone, otherwise
append its bytes to the `.dat` writer and `(key, offset)` to the FST builder.
Returns the `.dat` bytes, the FST pairs and the written count. -/
def mergeLoop (segs : List Segment) :
    List String → Nat → Panics (List Nat × List (String × Nat) × Nat)
  | [], _ => .returns ([], [], 0)
  | k :: ks, off =>
    match pickHighest segs (unionAt segs k) none with
    | .panics m => .panics m
    | .returns none => mergeLoop segs ks off
    | .returns (some highest) =>
      if Opstamp.is_deletion highest.opstamp then mergeLoop segs ks off
      else
        let bytes := highest.to_bytes
        match mergeLoop segs ks (off + bytes.length) with
        | .panics m => .panics m
        | .returns (d, f, n) => .returns (bytes ++ d, (k, off) :: f, n + 1)

/-- `compactor::merge_segments`: the output segment (its FST pairs and `.dat`
bytes) and the count of keys written. -/
def merge_segments (segs : List Segment) : Panics (Segment × Nat) :=
  match mergeLoop segs (allKeys segs) 0 with
  | .panics m => .panics m
  | .returns (d, f, n) => .returns (⟨f, d⟩, n)

/-! ## The index life cycle (`Index` in `src/minidex/src/lib.rs`)

A state-machine model of one directory evolving under a single `Index`
process: `insert`, `delete`, `commit`, `rollback`, the compactor, and a
crash-free close-and-reopen.  Disk I/O is modelled as succeeding (the claims
conditioned on this model speak of crash-free histories whose commits
completed successfully); `u64` overflow of the operation counter is not
modelled (`fetch_add` wraps at `2 ^ 64`, which is unreachable from a
microsecond wall-clock seed at one increment per operation). -/

/-- The durable part of the index directory: the persisted segments (tagged
with their base-name sequence number) and the `last_op` file. -/
structure Disk where
  segments : List (Nat × Segment)
  lastOp : Option Nat
deriving Repr, DecidableEq

/-- In-process state of an open `Index`: the atomic `next_op_seq` counter, the
memory overlay `mem_idx`, and the directory. -/
structure IndexState where
  counter : Nat
  overlay : List (String × IndexEntry)
  disk : Disk
deriving Repr, DecidableEq

/-- `Index::next_op_seq`: `fetch_add(1, SeqCst)` — returns the current value
and increments the counter. -/
def IndexState.next_op_seq (s : IndexState) : Nat × IndexState :=
  (s.counter, { s with counter := s.counter + 1 })

/-- `BTreeMap::insert`: replace the binding of the key or add it. -/
def overlayInsert : List (String × IndexEntry) → String → IndexEntry →
    List (String × IndexEntry)
  | [], k, e => [(k, e)]
  | (k', e') :: t, k, e =>
    if k' = k then (k, e) :: t else (k', e') :: overlayInsert t k e

/-- `BTreeMap::into_iter` on the drained overlay: pairs in ascending key
order. -/
def drainOverlay (m : List (String × IndexEntry)) : List (String × IndexEntry) :=
  m.mergeSort fun a b => decide (a.1 ≤ b.1)

/-- `Index::open_with_config` on an existing directory: the counter is seeded
from the persisted `last_op` if present, else from the wall clock
(microseconds since epoch, an arbitrary input of the model). -/
def openIndex (d : Disk) (clock : Nat) : IndexState :=
  { counter := d.lastOp.getD clock, overlay := [], disk := d }

/-- One step of the index life cycle.  `insert`/`delete` allocate an opstamp
and overwrite the overlay binding; `commit` (on a non-empty overlay) allocates
the segment's base name, writes and registers the segment, and persists
`last_op` with the counter value after that allocation; `rollback` clears the
overlay; `compact` allocates the output base name and, if the merge does not
panic, persists the merged segment (the compactor's `with_extension` calls
turn `<seq>.tmp` into `<seq>.seg`/`<seq>.dat`, so its output is loaded as a
segment on reopen, though never registered live); `reopen` models a crash-free
process exit followed by `Index::open` on the same directory. -/
inductive IndexStep : IndexState → IndexState → Prop
  | insert (s : IndexState) (path : String) (kind : Kind) (lm la : Nat) :
      IndexStep s
        { counter := s.counter + 1
          overlay := overlayInsert s.overlay path
            ⟨Opstamp.insertion s.counter, kind, 0, lm, la⟩
          disk := s.disk }
  | delete (s : IndexState) (path : String) :
      IndexStep s
        { counter := s.counter + 1
          overlay := overlayInsert s.overlay path
            ⟨Opstamp.deletion s.counter, .File, 0, 0, 0⟩
          disk := s.disk }
  | commit (s : IndexState) (h : s.overlay ≠ []) :
      IndexStep s
        { counter := s.counter + 1
          overlay := []
          disk :=
            { segments := s.disk.segments ++
                [(s.counter, writeSegmentData (drainOverlay s.overlay))]
              lastOp := some (s.counter + 1) } }
  | rollback (s : IndexState) :
      IndexStep s { s with overlay := [] }
  | compact (s : IndexState) (h : s.disk.segments ≠ []) :
      IndexStep s
        { counter := s.counter + 1
          overlay := s.overlay
          disk :=
            { segments := s.disk.segments ++
                (match merge_segments (s.disk.segments.map Prod.snd) with
                 | .returns r => [(s.counter, r.1)]
                 | .panics _ => [])
              lastOp := s.disk.lastOp } }
  | reopen (s : IndexState) (clock : Nat) :
      IndexStep s (openIndex s.disk clock)

/-- States reachable from a first-ever `Index::open` of an empty directory
(counter seeded from the wall clock). -/
def ReachableIndex (s : IndexState) : Prop :=
  ∃ clock : Nat, Relation.ReflTransGen IndexStep (openIndex ⟨[], none⟩ clock) s

/-! ## Claims C6 and C10: the entry codec and `get_entry` -/

/-- Claim C6, counterexample.  At the 31-byte input `replicate 31 0` (length
≠ `ENTRY_SIZE`), `IndexEntry::from_bytes` panics — `try_into` fails and
`expect("invalid entry size")` aborts the thread — rather than returning an
"invalid entry" failure value to its caller; in particular it does not
succeed.  This falsifies the claim's "returns a failure upward ... does not
abort the process". -/
theorem from_bytes_short_input_panics_cex :
    IndexEntry.from_bytes (List.replicate 31 0) = Panics.panics "invalid entry size" ∧
      ∀ e : IndexEntry, IndexEntry.from_bytes (List.replicate 31 0) ≠ Panics.returns e := by
  constructor
  · rfl
  · intro e h
    simp [IndexEntry.from_bytes, ENTRY_SIZE] at h

/-- Claim C6, amended: for every byte slice whose length is not `ENTRY_SIZE`,
`from_bytes` does not produce an entry — it panics with "invalid entry size"
(the failure is a panic, not a returned error value). -/
theorem from_bytes_wrong_length_panics (bytes : List Nat)
    (h : bytes.length ≠ ENTRY_SIZE) :
    IndexEntry.from_bytes bytes = Panics.panics "invalid entry size" := by
  simp [IndexEntry.from_bytes, h]

/-- Witness for `from_bytes_wrong_length_panics` at a 33-byte input. -/
theorem from_bytes_wrong_length_panics_witness :
    (List.replicate 33 0).length ≠ ENTRY_SIZE ∧
      IndexEntry.from_bytes (List.replicate 33 0) = Panics.panics "invalid entry size" :=
  ⟨by decide, from_bytes_wrong_length_panics (List.replicate 33 0) (by decide)⟩

/-- Claim C10, counterexample.  At `offset = 2 ^ 64 - 32` the `usize` addition
`start + ENTRY_SIZE` wraps to `0`, the `end > data.len()` test passes, and the
slice expression `&self.data[start..end]` panics: `get_entry` is not total,
and it does not return `None` even though `offset + ENTRY_SIZE` exceeds the
data length. -/
theorem get_entry_overflow_panics_cex :
    Segment.get_entry ⟨[], []⟩ (2 ^ 64 - 32) =
        Panics.panics "slice index starts at larger index than it ends at" ∧
      (2 ^ 64 - 32) + ENTRY_SIZE > ([] : List Nat).length ∧
      Segment.get_entry ⟨[], []⟩ (2 ^ 64 - 32) ≠ Panics.returns none := by
  refine ⟨?_, by decide, ?_⟩ <;> simp [Segment.get_entry, ENTRY_SIZE]

/-- Totality of `get_entry` for offsets whose `usize` addition cannot wrap:
within bounds the read returns the decoded 32-byte slice, out of bounds it
returns `None`. -/
theorem get_entry_total_helper (s : Segment) (off : Nat)
    (h64 : off + ENTRY_SIZE < 2 ^ 64) :
    (off + ENTRY_SIZE ≤ s.data.length →
      ((s.data.take (off + ENTRY_SIZE)).drop off).length = ENTRY_SIZE ∧
        s.get_entry off =
          Panics.returns (some (decodeEntry ((s.data.take (off + ENTRY_SIZE)).drop off)))) ∧
    (s.data.length < off + ENTRY_SIZE → s.get_entry off = Panics.returns none) := by
  have hoff : off % 2 ^ 64 = off := Nat.mod_eq_of_lt (by omega)
  have hstop : (off + ENTRY_SIZE) % 2 ^ 64 = off + ENTRY_SIZE := Nat.mod_eq_of_lt h64
  constructor
  · intro hle
    have hlen : ((s.data.take (off + ENTRY_SIZE)).drop off).length = ENTRY_SIZE := by
      simp [List.length_drop, List.length_take]
      omega
    refine ⟨hlen, ?_⟩
    unfold Segment.get_entry
    rw [hoff, hstop, if_neg (by omega), if_pos (by omega)]
    unfold IndexEntry.from_bytes
    rw [if_pos hlen]
    rfl
  · intro hlt
    unfold Segment.get_entry
    rw [hoff, hstop, if_pos (by omega)]

/-- Claim C10, amended: for every offset that cannot overflow the `usize`
addition (`offset + ENTRY_SIZE < 2 ^ 64`), `get_entry` is total: if the
bounds check passes, the slice handed to `from_bytes` has length exactly
`ENTRY_SIZE` — so the "invalid entry size" panic branch of `from_bytes` is
unreachable and the entry is returned — and if the bounds check fails,
`get_entry` returns `None`. -/
theorem get_entry_no_overflow_total (s : Segment) (off : Nat)
    (h64 : off + ENTRY_SIZE < 2 ^ 64) :
    (off + ENTRY_SIZE ≤ s.data.length →
      ((s.data.take (off + ENTRY_SIZE)).drop off).length = ENTRY_SIZE ∧
        s.get_entry off =
          Panics.returns (some (decodeEntry ((s.data.take (off + ENTRY_SIZE)).drop off)))) ∧
    (s.data.length < off + ENTRY_SIZE → s.get_entry off = Panics.returns none) :=
  get_entry_total_helper s off h64

/-- Witness for `get_entry_no_overflow_total` on a 32-byte segment at offset
0. -/
theorem get_entry_no_overflow_total_witness :
    (0 + ENTRY_SIZE < 2 ^ 64) ∧
      ((0 + ENTRY_SIZE ≤ (List.replicate 32 7).length →
        (((List.replicate 32 (7 : Nat)).take (0 + ENTRY_SIZE)).drop 0).length = ENTRY_SIZE ∧
          Segment.get_entry ⟨[], List.replicate 32 7⟩ 0 =
            Panics.returns
              (some (decodeEntry (((List.replicate 32 (7 : Nat)).take (0 + ENTRY_SIZE)).drop 0)))) ∧
      ((List.replicate 32 (7 : Nat)).length < 0 + ENTRY_SIZE →
        Segment.get_entry ⟨[], List.replicate 32 7⟩ 0 = Panics.returns none)) :=
  ⟨by decide, get_entry_no_overflow_total ⟨[], List.replicate 32 7⟩ 0 (by decide)⟩

/-! ## Claim C7: segment file creation -/

/-- Claim C7, counterexample.  With a directory that already holds
`b.dat`, `write_segment` at base `b` succeeds and truncates the existing
`b.dat` instead of failing: only the `.seg` file is opened with `create_new`;
the `.dat` file is opened with plain `File::create`. -/
theorem write_segment_dat_overwrite_cex :
    SegmentedIndex.write_segment [("b.dat", FileData.dat [1, 2, 3])] "b" [] =
        Except.ok [("b.dat", FileData.dat []), ("b.seg", FileData.seg [])] ∧
      (([("b.dat", FileData.dat [1, 2, 3])] : FileSys).lookup "b.dat").isSome := by
  constructor <;> rfl

/-- Claim C7, amended: only the `<base>.seg` file has `create_new` semantics —
whenever it already exists, `write_segment` fails with an error; the
`<base>.dat` file is opened with truncating `File::create` and an existing
`.dat` does not make the call fail. -/
theorem write_segment_seg_exists_fails (fs : FileSys) (base : String)
    (it : List (String × IndexEntry)) (h : (fs.lookup (base ++ ".seg")).isSome) :
    SegmentedIndex.write_segment fs base it = Except.error WriteSegmentError.alreadyExists := by
  simp [SegmentedIndex.write_segment, h]

/-- Witness for `write_segment_seg_exists_fails`. -/
theorem write_segment_seg_exists_fails_witness :
    (([("b.seg", FileData.seg [])] : FileSys).lookup ("b" ++ ".seg")).isSome ∧
      SegmentedIndex.write_segment [("b.seg", FileData.seg [])] "b" [] =
        Except.error WriteSegmentError.alreadyExists :=
  ⟨by decide, write_segment_seg_exists_fails [("b.seg", FileData.seg [])] "b" [] (by decide)⟩

/-! ## Claim C1: what the compiled pattern matches -/

theorem stripCIPrefix_sound {w s r : List Char} (h : stripCIPrefix w s = some r) :
    ∃ w', s = w' ++ r ∧ ciEq w w' := by
  induction w generalizing s with
  | nil =>
    refine ⟨[], ?_, rfl⟩
    simpa [stripCIPrefix] using h
  | cons c w ih =>
    cases s with
    | nil => simp [stripCIPrefix] at h
    | cons d t =>
      by_cases hc : foldc c = foldc d
      · rw [stripCIPrefix, if_pos hc] at h
        obtain ⟨w', ht, hci⟩ := ih h
        exact ⟨d :: w', by simp [ht], by simpa [ciEq, hc] using hci⟩
      · rw [stripCIPrefix, if_neg hc] at h
        exact absurd h (by simp)

theorem stripCIPrefix_complete {w w' : List Char} (r : List Char) (h : ciEq w w') :
    stripCIPrefix w (w' ++ r) = some r := by
  induction w generalizing w' with
  | nil =>
    have : w' = [] := by
      have := congrArg List.length h
      simpa [ciEq] using this.symm
    simp [this, stripCIPrefix]
  | cons c w ih =>
    cases w' with
    | nil => simp [ciEq] at h
    | cons d t =>
      simp only [ciEq, List.map_cons, List.cons.injEq] at h
      rw [List.cons_append, stripCIPrefix, if_pos h.1]
      exact ih h.2

theorem findCI_cons (w : List Char) (d : Char) (t : List Char) :
    findCI w (d :: t) =
      match stripCIPrefix w (d :: t) with
      | some r => some r
      | none => findCI w t := rfl

theorem findCI_sound {w : List Char} {s r : List Char} (h : findCI w s = some r) :
    ∃ pre w', s = pre ++ w' ++ r ∧ ciEq w w' := by
  induction s with
  | nil =>
    obtain ⟨w', hw, hci⟩ := stripCIPrefix_sound (by simpa [findCI] using h)
    exact ⟨[], w', by simpa using hw, hci⟩
  | cons d t ih =>
    rw [findCI] at h
    cases hs : stripCIPrefix w (d :: t) with
    | some r0 =>
      rw [hs] at h
      obtain ⟨w', hw, hci⟩ := stripCIPrefix_sound hs
      cases h
      exact ⟨[], w', by simpa using hw, hci⟩
    | none =>
      rw [hs] at h
      obtain ⟨pre, w', hw, hci⟩ := ih h
      exact ⟨d :: pre, w', by simp [hw], hci⟩

theorem findCI_found {w w' : List Char} (pre rest : List Char) (h : ciEq w w') :
    ∃ r, findCI w (pre ++ w' ++ rest) = some r ∧ rest <:+ r := by
  induction pre with
  | nil =>
    refine ⟨rest, ?_, List.suffix_refl rest⟩
    rw [List.nil_append]
    have hs := stripCIPrefix_complete rest h
    cases hw : (w' ++ rest : List Char) with
    | nil => rw [hw] at hs; simpa [findCI] using hs
    | cons d t => rw [hw] at hs; rw [findCI_cons, hs]
  | cons c pre ih =>
    obtain ⟨r, hr, hsuf⟩ := ih
    rw [List.cons_append, List.cons_append, findCI_cons]
    cases hs : stripCIPrefix w (c :: (pre ++ w' ++ rest)) with
    | some r0 =>
      refine ⟨r0, rfl, ?_⟩
      obtain ⟨w'', hw'', hci''⟩ := stripCIPrefix_sound hs
      have hlen : w''.length = w'.length := by
        have h1 := congrArg List.length hci''
        have h2 := congrArg List.length h
        simp [ciEq] at h1 h2
        omega
      have hr0 : r0 = (c :: (pre ++ w' ++ rest)).drop w''.length := by
        rw [hw'']; simp
      have hrest : rest = (c :: (pre ++ w' ++ rest)).drop (pre.length + 1 + w'.length) := by
        rw [show c :: (pre ++ w' ++ rest) = (c :: pre ++ w') ++ rest by simp]
        rw [show pre.length + 1 + w'.length = (c :: pre ++ w').length by simp; omega]
        rw [List.drop_left]
      have key : rest = r0.drop (pre.length + 1 + w'.length - w''.length) := by
        rw [hr0, List.drop_drop, show w''.length + (pre.length + 1 + w'.length - w''.length) =
          pre.length + 1 + w'.length by omega]
        exact hrest
      rw [key]
      exact List.drop_suffix _ _
    | none => exact ⟨r, hr, hsuf⟩

theorem occursInOrder_append_left {ws : List (List Char)} {r : List Char}
    (pre : List Char) (h : OccursInOrder ws r) : OccursInOrder ws (pre ++ r) := by
  cases h with
  | nil => exact .nil _
  | cons p w' rest w ws hci hrest =>
    rw [show pre ++ (p ++ w' ++ rest) = (pre ++ p) ++ w' ++ rest by simp]
    exact .cons _ _ _ _ _ hci hrest

theorem matchWords_sound {ws : List (List Char)} {s : List Char}
    (h : matchWords ws s = true) : OccursInOrder ws s := by
  induction ws generalizing s with
  | nil => exact .nil s
  | cons w ws ih =>
    rw [matchWords] at h
    cases hf : findCI w s with
    | none => rw [hf] at h; cases h
    | some r =>
      rw [hf] at h
      obtain ⟨pre, w', hw, hci⟩ := findCI_sound hf
      rw [hw]
      exact .cons _ _ _ _ _ hci (ih h)

theorem matchWords_complete {ws : List (List Char)} {s : List Char}
    (h : OccursInOrder ws s) : matchWords ws s = true := by
  induction ws generalizing s with
  | nil => rfl
  | cons w ws ih =>
    cases h with
    | cons pre w' rest w ws hci hrest =>
      obtain ⟨r, hr, hsuf⟩ := findCI_found pre rest hci
      rw [matchWords, hr]
      obtain ⟨p, hp⟩ := hsuf
      exact ih (hp ▸ occursInOrder_append_left p hrest)

/-- Claim C1, counterexample.  Query `"jpg"` and key `"jpeg"`: every word of
the query (`"jpg"`) occurs in the key as an ordered case-insensitive character
subsequence, yet the pattern `(?i)(?s).*jpg.*` that `Index::search` compiles
does not accept `"jpeg"` — the word's characters are appended contiguously,
with `.*` only after the whole word, so a contiguous occurrence is required. -/
theorem matcher_subsequence_cex :
    ¬(isMatch "jpg" "jpeg" = true ↔
        ∀ w ∈ wordsOf "jpg", isSubseqCI w "jpeg".data = true) := by
  intro h
  have := h.mpr (by decide)
  simp [isMatch] at this
  revert this
  decide

/-- Claim C1, amended.  The matcher that `Index::search` compiles from `q`
accepts `k` iff the whitespace-separated words of `q` occur in `k`, in query
order, as non-overlapping contiguous case-insensitive substrings: `k` splits
as `gap₀ ++ w₁' ++ gap₁ ++ … ++ wₙ' ++ gapₙ` with each `wᵢ'` case-equal to the
i-th query word (rather than each word occurring merely as a character
subsequence). -/
theorem matcher_orderedSubstrings (q k : String) :
    isMatch q k = true ↔ OccursInOrder (wordsOf q) k.data :=
  ⟨matchWords_sound, matchWords_complete⟩

/-! ## Claim C9: result ordering -/

/-- The order `SearchResult::cmp` implements, as a proposition: `last_modified`
descending, then `kind` ascending in declaration order (`File < Directory <
Symlink`), then `path` ascending. -/
def srLE (a b : SearchResult) : Prop :=
  b.last_modified < a.last_modified ∨
    (b.last_modified = a.last_modified ∧
      (a.kind.toByte < b.kind.toByte ∨
        (a.kind.toByte = b.kind.toByte ∧ a.path ≤ b.path)))

theorem natCmp_lt {a b : Nat} (h : a < b) : natCmp a b = .lt := by
  simp [natCmp, h]

theorem natCmp_eq {a b : Nat} (h : a = b) : natCmp a b = .eq := by
  simp [natCmp, h]

theorem natCmp_gt {a b : Nat} (h : b < a) : natCmp a b = .gt := by
  rw [natCmp, if_neg (by omega), if_neg (by omega)]

theorem strCmp_lt {a b : String} (h : a < b) : strCmp a b = .lt := by
  simp [strCmp, h]

theorem strCmp_eq {a b : String} (h : a = b) : strCmp a b = .eq := by
  rw [strCmp, if_neg (by simp [h]), if_pos h]

theorem strCmp_gt {a b : String} (h : b < a) : strCmp a b = .gt := by
  rw [strCmp, if_neg (not_lt_of_gt h), if_neg (ne_of_gt h)]

theorem then_lt (x : Ordering) : Ordering.lt.then x = .lt := rfl

theorem then_eq (x : Ordering) : Ordering.eq.then x = x := rfl

theorem then_gt (x : Ordering) : Ordering.gt.then x = .gt := rfl

theorem searchResult_le_iff (a b : SearchResult) :
    SearchResult.le a b = true ↔ srLE a b := by
  unfold SearchResult.le SearchResult.cmp
  rcases Nat.lt_trichotomy b.last_modified a.last_modified with h1 | h1 | h1
  · rw [natCmp_lt h1, then_lt, then_lt]
    exact iff_of_true (by decide) (Or.inl h1)
  · rw [natCmp_eq h1, then_eq]
    rcases Nat.lt_trichotomy a.kind.toByte b.kind.toByte with h2 | h2 | h2
    · rw [natCmp_lt h2, then_lt]
      exact iff_of_true (by decide) (Or.inr ⟨h1, Or.inl h2⟩)
    · rw [natCmp_eq h2, then_eq]
      rcases lt_trichotomy a.path b.path with h3 | h3 | h3
      · rw [strCmp_lt h3]
        exact iff_of_true (by decide) (Or.inr ⟨h1, Or.inr ⟨h2, le_of_lt h3⟩⟩)
      · rw [strCmp_eq h3]
        exact iff_of_true (by decide) (Or.inr ⟨h1, Or.inr ⟨h2, le_of_eq h3⟩⟩)
      · rw [strCmp_gt h3]
        refine iff_of_false (by decide) ?_
        rintro (hc | ⟨-, hc | ⟨-, hc⟩⟩)
        · omega
        · omega
        · exact absurd h3 (not_lt_of_le hc)
    · rw [natCmp_gt h2, then_gt]
      refine iff_of_false (by decide) ?_
      rintro (hc | ⟨-, hc | ⟨hc, -⟩⟩) <;> omega
  · rw [natCmp_gt h1, then_gt, then_gt]
    refine iff_of_false (by decide) ?_
    rintro (hc | ⟨hc, -⟩) <;> omega

theorem srLE_trans (a b c : SearchResult) (h1 : srLE a b) (h2 : srLE b c) : srLE a c := by
  unfold srLE at h1 h2 ⊢
  rcases h1 with h1 | ⟨e1, k1⟩
  · rcases h2 with h2 | ⟨e2, k2⟩
    · exact Or.inl (by omega)
    · exact Or.inl (by omega)
  · rcases h2 with h2 | ⟨e2, k2⟩
    · exact Or.inl (by omega)
    · refine Or.inr ⟨by omega, ?_⟩
      rcases k1 with k1 | ⟨f1, p1⟩
      · rcases k2 with k2 | ⟨f2, p2⟩
        · exact Or.inl (by omega)
        · exact Or.inl (by omega)
      · rcases k2 with k2 | ⟨f2, p2⟩
        · exact Or.inl (by omega)
        · exact Or.inr ⟨by omega, le_trans p1 p2⟩

theorem srLE_total (a b : SearchResult) : srLE a b ∨ srLE b a := by
  unfold srLE
  rcases Nat.lt_trichotomy a.last_modified b.last_modified with h | h | h
  · right; left; exact h
  · rcases Nat.lt_trichotomy a.kind.toByte b.kind.toByte with g | g | g
    · left; right; exact ⟨h.symm, Or.inl g⟩
    · rcases le_total a.path b.path with p | p
      · left; right; exact ⟨h.symm, Or.inr ⟨g, p⟩⟩
      · right; right; exact ⟨h, Or.inr ⟨g.symm, p⟩⟩
    · right; right; exact ⟨h, Or.inl g⟩
  · left; left; exact h

theorem srLE_bool_trans (a b c : SearchResult) (h1 : SearchResult.le a b = true)
    (h2 : SearchResult.le b c = true) : SearchResult.le a c = true :=
  (searchResult_le_iff a c).mpr
    (srLE_trans a b c ((searchResult_le_iff a b).mp h1) ((searchResult_le_iff b c).mp h2))

theorem srLE_bool_total (a b : SearchResult) :
    (SearchResult.le a b || SearchResult.le b a) = true := by
  rcases srLE_total a b with h | h
  · simp [(searchResult_le_iff a b).mpr h]
  · simp [(searchResult_le_iff b a).mpr h]

/-- Claim C9: every result list `Index::search` returns is sorted by
`last_modified` descending, then `kind` ascending in the declaration order
`File < Directory < Symlink`, then `path` ascending. -/
theorem search_results_sorted (mem : List (String × IndexEntry)) (segs : List Segment)
    (q : String) (rs : List SearchResult) (h : Index.search mem segs q = Panics.returns rs) :
    rs.Pairwise srLE := by
  unfold Index.search at h
  cases hsp : segsPass q segs (memPass q mem) with
  | panics m => rw [hsp] at h; cases h
  | returns cands =>
    rw [hsp] at h
    simp only [Panics.returns.injEq] at h
    subst h
    exact (List.sorted_mergeSort srLE_bool_trans srLE_bool_total _).imp
      fun hab => (searchResult_le_iff _ _).mp hab

/-- Witness for `search_results_sorted` on a one-entry overlay. -/
theorem search_results_sorted_witness :
    Index.search [("A", ⟨Opstamp.insertion 1, Kind.File, 0, 5, 5⟩)] [] "" =
      Panics.returns [⟨"A", Kind.File, 5, 5⟩] ∧
      List.Pairwise srLE [(⟨"A", Kind.File, 5, 5⟩ : SearchResult)] := by
  have h : Index.search [("A", ⟨Opstamp.insertion 1, Kind.File, 0, 5, 5⟩)] [] "" =
      Panics.returns [⟨"A", Kind.File, 5, 5⟩] := by
    simp [Index.search, segsPass, memPass, isMatch, wordsOf, splitWsAux, matchWords,
      updCandidates, Opstamp.insertion, Opstamp.is_deletion, List.mergeSort_singleton]
  exact ⟨h, search_results_sorted _ _ _ _ h⟩

/-! ## Claims C2 and C3: machinery

The candidate table built by `search` is characterised by an invariant over
the list of `(path, entry)` pairs offered to it (the overlay pairs and stored
segment pairs whose path matches the pattern, in processing order): every
candidate holds an offered pair of its folded key whose opstamp sequence
dominates all offered pairs of that folded key, and every offered pair's
folded key is present.  Because the matcher is case-insensitive, whether a
pair is offered depends only on its folded path, which lets the dominance be
transported from offered pairs to all pairs of the index state. -/

/-- Fold-equality of two optional character lists. -/
def OptFoldRel : Option (List Char) → Option (List Char) → Prop
  | none, none => True
  | some r, some r' => r.map foldc = r'.map foldc
  | _, _ => False

theorem OptFoldRel.refl (x : Option (List Char)) : OptFoldRel x x := by
  cases x <;> simp [OptFoldRel]

theorem stripCIPrefix_fold_congr (w : List Char) {s s' : List Char}
    (h : s.map foldc = s'.map foldc) :
    OptFoldRel (stripCIPrefix w s) (stripCIPrefix w s') := by
  induction w generalizing s s' with
  | nil => simpa [stripCIPrefix, OptFoldRel] using h
  | cons c w ih =>
    cases s with
    | nil =>
      cases s' with
      | nil => simp [stripCIPrefix, OptFoldRel]
      | cons d' t' => simp at h
    | cons d t =>
      cases s' with
      | nil => simp at h
      | cons d' t' =>
        simp only [List.map_cons, List.cons.injEq] at h
        rw [stripCIPrefix, stripCIPrefix, h.1]
        by_cases hc : foldc c = foldc d'
        · rw [if_pos hc, if_pos hc]
          exact ih h.2
        · rw [if_neg hc, if_neg hc]
          trivial

theorem findCI_fold_congr (w : List Char) {s s' : List Char}
    (h : s.map foldc = s'.map foldc) :
    OptFoldRel (findCI w s) (findCI w s') := by
  induction s generalizing s' with
  | nil =>
    cases s' with
    | nil => exact OptFoldRel.refl _
    | cons d' t' => simp at h
  | cons d t ih =>
    cases s' with
    | nil => simp at h
    | cons d' t' =>
      have hrel := stripCIPrefix_fold_congr w h
      rw [findCI_cons, findCI_cons]
      cases hf : stripCIPrefix w (d :: t) with
      | none =>
        cases hf' : stripCIPrefix w (d' :: t') with
        | none =>
          simp only [List.map_cons, List.cons.injEq] at h
          exact ih h.2
        | some r' => rw [hf, hf'] at hrel; exact absurd hrel (by simp [OptFoldRel])
      | some r =>
        cases hf' : stripCIPrefix w (d' :: t') with
        | none => rw [hf, hf'] at hrel; exact absurd hrel (by simp [OptFoldRel])
        | some r' => rw [hf, hf'] at hrel; exact hrel

theorem matchWords_fold_congr (ws : List (List Char)) {s s' : List Char}
    (h : s.map foldc = s'.map foldc) : matchWords ws s = matchWords ws s' := by
  induction ws generalizing s s' with
  | nil => rfl
  | cons w ws ih =>
    have hrel := findCI_fold_congr w h
    rw [matchWords, matchWords]
    cases hf : findCI w s with
    | none =>
      cases hf' : findCI w s' with
      | none => rfl
      | some r' => rw [hf, hf'] at hrel; exact absurd hrel (by simp [OptFoldRel])
    | some r =>
      cases hf' : findCI w s' with
      | none => rw [hf, hf'] at hrel; exact absurd hrel (by simp [OptFoldRel])
      | some r' => rw [hf, hf'] at hrel; exact ih hrel

theorem isMatch_fold_congr (q : String) {p p' : String}
    (h : foldStr p = foldStr p') : isMatch q p = isMatch q p' :=
  matchWords_fold_congr (wordsOf q) (congrArg String.data h)

/-- First binding of a key in the candidate table. -/
def candLookup : Cands → String → Option (String × IndexEntry)
  | [], _ => none
  | (k', v) :: t, k => if k' = k then some v else candLookup t k

theorem candLookup_upd_self (c : Cands) (k : String) (p : String) (e : IndexEntry) :
    candLookup (updCandidates c k p e) k =
      some (match candLookup c k with
        | none => (p, e)
        | some v =>
          if Opstamp.sequence e.opstamp > Opstamp.sequence v.2.opstamp then (p, e) else v) := by
  induction c with
  | nil => simp [updCandidates, candLookup]
  | cons hd t ih =>
    obtain ⟨k', p', e'⟩ := hd
    by_cases hk : k' = k
    · subst hk
      rw [updCandidates, if_pos rfl]
      by_cases hs : Opstamp.sequence e.opstamp > Opstamp.sequence e'.opstamp
      · rw [if_pos hs]
        simp only [candLookup]
        simp [hs]
      · rw [if_neg hs]
        simp only [candLookup]
        simp [hs]
    · rw [updCandidates, if_neg hk]
      simp only [candLookup]
      rw [if_neg hk, if_neg hk]
      exact ih

theorem candLookup_upd_other (c : Cands) (k k' : String) (p : String) (e : IndexEntry)
    (h : k' ≠ k) : candLookup (updCandidates c k p e) k' = candLookup c k' := by
  induction c with
  | nil =>
    simp only [updCandidates, candLookup]
    rw [if_neg fun hh => h hh.symm]
  | cons hd t ih =>
    obtain ⟨k'', p'', e''⟩ := hd
    by_cases hk : k'' = k
    · subst hk
      have hne : k'' ≠ k' := fun hh => h hh.symm
      rw [updCandidates, if_pos rfl]
      by_cases hs : Opstamp.sequence e.opstamp > Opstamp.sequence e''.opstamp
      · rw [if_pos hs]
        simp only [candLookup]
        rw [if_neg hne, if_neg hne]
      · rw [if_neg hs]
    · rw [updCandidates, if_neg hk]
      simp only [candLookup]
      by_cases hq : k'' = k'
      · rw [if_pos hq, if_pos hq]
      · rw [if_neg hq, if_neg hq]
        exact ih

theorem candLookup_none_iff (c : Cands) (k : String) :
    candLookup c k = none ↔ k ∉ c.map fun x => x.1 := by
  induction c with
  | nil => simp [candLookup]
  | cons hd t ih =>
    obtain ⟨k', v⟩ := hd
    rw [candLookup]
    by_cases hk : k' = k
    · subst hk
      simp
    · rw [if_neg hk]
      simp only [List.map_cons, List.mem_cons]
      rw [ih]
      constructor
      · rintro hn (h1 | h2)
        · exact hk h1.symm
        · exact hn h2
      · intro hn
        exact fun h2 => hn (Or.inr h2)

theorem updCandidates_keys (c : Cands) (k : String) (p : String) (e : IndexEntry) :
    (updCandidates c k p e).map (fun x => x.1) =
      if (candLookup c k).isSome then c.map fun x => x.1
      else (c.map fun x => x.1) ++ [k] := by
  induction c with
  | nil => simp [updCandidates, candLookup]
  | cons hd t ih =>
    obtain ⟨k', p', e'⟩ := hd
    by_cases hk : k' = k
    · subst hk
      rw [updCandidates, if_pos rfl, candLookup, if_pos rfl]
      by_cases hs : Opstamp.sequence e.opstamp > Opstamp.sequence e'.opstamp
      · rw [if_pos hs]
        simp
      · rw [if_neg hs]
        simp
    · rw [updCandidates, if_neg hk, candLookup, if_neg hk]
      by_cases ho : (candLookup t k).isSome
      · rw [if_pos ho]
        simp only [List.map_cons]
        rw [ih, if_pos ho]
      · rw [if_neg ho]
        simp only [List.map_cons]
        rw [ih, if_neg ho]
        rfl

/-- Keys of the candidate table are distinct. -/
def NKCands (c : Cands) : Prop := (c.map fun x => x.1).Nodup

theorem NKCands_upd (c : Cands) (k : String) (p : String) (e : IndexEntry)
    (h : NKCands c) : NKCands (updCandidates c k p e) := by
  unfold NKCands at *
  rw [updCandidates_keys]
  by_cases ho : (candLookup c k).isSome
  · rw [if_pos ho]
    exact h
  · rw [if_neg ho]
    have hk : k ∉ c.map fun x => x.1 := by
      rw [← candLookup_none_iff]
      exact Option.not_isSome_iff_eq_none.mp ho
    simp [List.nodup_append, h, hk]

theorem candLookup_of_mem {c : Cands} {x : String × String × IndexEntry}
    (hN : NKCands c) (hx : x ∈ c) : candLookup c x.1 = some x.2 := by
  induction c with
  | nil => cases hx
  | cons hd t ih =>
    obtain ⟨k', v⟩ := hd
    rcases List.mem_cons.mp hx with h1 | h1
    · subst h1
      rw [candLookup, if_pos rfl]
    · have hne : k' ≠ x.1 := by
        intro hh
        have : x.1 ∈ t.map fun y => y.1 := List.mem_map.mpr ⟨x, h1, rfl⟩
        rw [← hh] at this
        exact (List.nodup_cons.mp hN).1 this
      rw [candLookup, if_neg hne]
      exact ih (List.nodup_cons.mp hN).2 h1

/-- One offer to the candidate table: the pair goes in under its folded
path. -/
def offerStep (c : Cands) (y : String × IndexEntry) : Cands :=
  updCandidates c (foldStr y.1) y.1 y.2

/-- Dominance invariant: every candidate binding holds an offered pair whose
folded path is its key and whose opstamp sequence dominates every offered
pair of that folded key. -/
def InvCands (S : List (String × IndexEntry)) (c : Cands) : Prop :=
  ∀ k v, candLookup c k = some v →
    foldStr v.1 = k ∧ (v.1, v.2) ∈ S ∧
      ∀ y ∈ S, foldStr y.1 = k →
        Opstamp.sequence y.2.opstamp ≤ Opstamp.sequence v.2.opstamp

/-- Completeness: every offered pair's folded key is bound. -/
def ComCands (S : List (String × IndexEntry)) (c : Cands) : Prop :=
  ∀ y ∈ S, (candLookup c (foldStr y.1)).isSome

theorem inv_offer {S : List (String × IndexEntry)} {c : Cands}
    (y : String × IndexEntry) (hI : InvCands S c) (hC : ComCands S c) :
    InvCands (S ++ [y]) (offerStep c y) ∧ ComCands (S ++ [y]) (offerStep c y) := by
  constructor
  · intro k v hv
    by_cases hk : k = foldStr y.1
    · subst hk
      rw [offerStep, candLookup_upd_self] at hv
      cases hl : candLookup c (foldStr y.1) with
      | none =>
        rw [hl] at hv
        simp only [Option.some.injEq] at hv
        subst hv
        refine ⟨rfl, List.mem_append_right _ (by simp), ?_⟩
        intro z hz hfz
        rcases List.mem_append.mp hz with hz | hz
        · have := hC z hz
          rw [hfz, hl] at this
          cases this
        · have : z = y := by simpa using hz
          subst this
          exact le_refl _
      | some v0 =>
        rw [hl] at hv
        obtain ⟨hf0, hm0, hd0⟩ := hI _ _ hl
        simp only [Option.some.injEq] at hv
        by_cases hs : Opstamp.sequence y.2.opstamp > Opstamp.sequence v0.2.opstamp
        · rw [if_pos hs] at hv
          subst hv
          refine ⟨rfl, List.mem_append_right _ (by simp), ?_⟩
          intro z hz hfz
          rcases List.mem_append.mp hz with hz | hz
          · exact le_trans (hd0 z hz hfz) (le_of_lt hs)
          · have : z = y := by simpa using hz
            subst this
            exact le_refl _
        · rw [if_neg hs] at hv
          subst hv
          refine ⟨hf0, List.mem_append_left _ hm0, ?_⟩
          intro z hz hfz
          rcases List.mem_append.mp hz with hz | hz
          · exact hd0 z hz hfz
          · have : z = y := by simpa using hz
            subst this
            exact le_of_not_lt hs
    · rw [offerStep, candLookup_upd_other _ _ _ _ _ hk] at hv
      obtain ⟨hf0, hm0, hd0⟩ := hI _ _ hv
      refine ⟨hf0, List.mem_append_left _ hm0, ?_⟩
      intro z hz hfz
      rcases List.mem_append.mp hz with hz | hz
      · exact hd0 z hz hfz
      · have : z = y := by simpa using hz
        subst this
        exact absurd hfz fun hh => hk hh.symm
  · intro z hz
    rcases List.mem_append.mp hz with hz | hz
    · by_cases hk : foldStr z.1 = foldStr y.1
      · rw [hk, offerStep, candLookup_upd_self]
        rfl
      · rw [offerStep, candLookup_upd_other _ _ _ _ _ hk]
        exact hC z hz
    · have : z = y := by simpa using hz
      subst this
      rw [offerStep, candLookup_upd_self]
      rfl

theorem inv_foldl (S : List (String × IndexEntry)) :
    ∀ (S₀ : List (String × IndexEntry)) (c : Cands),
      InvCands S₀ c → ComCands S₀ c →
      InvCands (S₀ ++ S) (S.foldl offerStep c) ∧
        ComCands (S₀ ++ S) (S.foldl offerStep c) := by
  induction S with
  | nil =>
    intro S₀ c h1 h2
    simpa using ⟨h1, h2⟩
  | cons y S ih =>
    intro S₀ c h1 h2
    obtain ⟨h1', h2'⟩ := inv_offer y h1 h2
    have := ih (S₀ ++ [y]) (offerStep c y) h1' h2'
    simpa [List.append_assoc] using this

theorem nk_foldl (S : List (String × IndexEntry)) :
    ∀ c : Cands, NKCands c → NKCands (S.foldl offerStep c) := by
  induction S with
  | nil => exact fun c h => h
  | cons y S ih =>
    intro c h
    exact ih _ (NKCands_upd _ _ _ _ h)

theorem foldl_guard_eq_filter (q : String) (l : List (String × IndexEntry)) :
    ∀ c : Cands,
      l.foldl (fun c pe =>
        if isMatch q pe.1 then updCandidates c (foldStr pe.1) pe.1 pe.2 else c) c =
        (l.filter fun y => isMatch q y.1).foldl offerStep c := by
  induction l with
  | nil => intro c; rfl
  | cons y l ih =>
    intro c
    by_cases hm : isMatch q y.1
    · rw [List.foldl_cons, if_pos hm, List.filter_cons, if_pos hm, List.foldl_cons]
      exact ih _
    · rw [List.foldl_cons, if_neg hm, List.filter_cons, if_neg hm]
      exact ih _

theorem streamSeg_cons (q : String) (seg : Segment) (term : String) (off : Nat)
    (t : List (String × Nat)) (c : Cands) :
    streamSeg q seg ((term, off) :: t) c =
      if isMatch q term then
        match seg.get_entry off with
        | .panics m => .panics m
        | .returns none => streamSeg q seg t c
        | .returns (some e) => streamSeg q seg t (updCandidates c (foldStr term) term e)
      else streamSeg q seg t c := rfl

theorem streamSeg_returns_eq (q : String) (seg : Segment) :
    ∀ (pairs : List (String × Nat)) (c c' : Cands),
      streamSeg q seg pairs c = .returns c' →
      c' = ((pairs.filterMap fun p =>
              match seg.get_entry p.2 with
              | .returns (some e) => some (p.1, e)
              | _ => none).filter fun y => isMatch q y.1).foldl offerStep c := by
  intro pairs
  induction pairs with
  | nil =>
    intro c c' h
    cases h
    rfl
  | cons p t ih =>
    obtain ⟨term, off⟩ := p
    intro c c' h
    rw [streamSeg_cons] at h
    by_cases hm : isMatch q term
    · rw [if_pos hm] at h
      cases hg : seg.get_entry off with
      | panics m => rw [hg] at h; cases h
      | returns oe =>
        rw [hg] at h
        cases oe with
        | none =>
          rw [List.filterMap_cons]
          simp only [hg]
          exact ih _ _ h
        | some e =>
          rw [List.filterMap_cons]
          simp only [hg]
          rw [List.filter_cons, if_pos hm, List.foldl_cons]
          exact ih _ _ h
    · rw [if_neg hm] at h
      rw [List.filterMap_cons]
      cases hg : seg.get_entry off with
      | panics m =>
        simp only [hg]
        exact ih _ _ h
      | returns oe =>
        cases oe with
        | none =>
          simp only [hg]
          exact ih _ _ h
        | some e =>
          simp only [hg]
          rw [List.filter_cons, if_neg hm]
          exact ih _ _ h

theorem streamSeg_fst_returns_eq (q : String) (seg : Segment) (c c' : Cands)
    (h : streamSeg q seg seg.fst c = .returns c') :
    c' = (seg.storedEntries.filter fun y => isMatch q y.1).foldl offerStep c :=
  streamSeg_returns_eq q seg seg.fst c c' h

theorem segsPass_cons (q : String) (seg : Segment) (rest : List Segment) (c : Cands) :
    segsPass q (seg :: rest) c =
      match streamSeg q seg seg.fst c with
      | .panics m => .panics m
      | .returns c' => segsPass q rest c' := rfl

theorem segsPass_returns_eq (q : String) :
    ∀ (segs : List Segment) (c c' : Cands),
      segsPass q segs c = .returns c' →
      c' = (segs.flatMap fun s => s.storedEntries.filter fun y => isMatch q y.1).foldl
            offerStep c := by
  intro segs
  induction segs with
  | nil =>
    intro c c' h
    cases h
    rfl
  | cons s rest ih =>
    intro c c' h
    rw [segsPass_cons] at h
    cases hst : streamSeg q s s.fst c with
    | panics m => rw [hst] at h; cases h
    | returns c1 =>
      rw [hst] at h
      have h1 := streamSeg_fst_returns_eq q s c c1 hst
      have h2 := ih _ _ h
      rw [List.flatMap_cons, List.foldl_append, ← h1]
      exact h2

/-- The pairs offered to the candidate table, in processing order: overlay
pairs then stored segment pairs, restricted to paths the pattern matches. -/
def offersOf (q : String) (mem : List (String × IndexEntry)) (segs : List Segment) :
    List (String × IndexEntry) :=
  (sourceEntries mem segs).filter fun y => isMatch q y.1

theorem offersOf_eq (q : String) (mem : List (String × IndexEntry))
    (segs : List Segment) :
    offersOf q mem segs =
      (mem.filter fun y => isMatch q y.1) ++
        (segs.flatMap fun s => s.storedEntries.filter fun y => isMatch q y.1) := by
  unfold offersOf sourceEntries
  rw [List.filter_append]
  congr 1
  induction segs with
  | nil => rfl
  | cons s rest ih =>
    rw [List.flatMap_cons, List.flatMap_cons, List.filter_append, ih]

theorem search_cands_eq (q : String) (mem : List (String × IndexEntry))
    (segs : List Segment) (cands : Cands)
    (h : segsPass q segs (memPass q mem) = .returns cands) :
    cands = (offersOf q mem segs).foldl offerStep [] := by
  have h1 := segsPass_returns_eq q segs (memPass q mem) cands h
  rw [show memPass q mem = (mem.filter fun y => isMatch q y.1).foldl offerStep [] from
    foldl_guard_eq_filter q mem [], ← List.foldl_append, ← offersOf_eq] at h1
  exact h1

/-- Origin of a search result: it comes from a non-tombstoned pair of the
index state whose path matches the pattern and whose opstamp sequence
dominates every pair of the state with the same folded path. -/
theorem searchResult_origin (mem : List (String × IndexEntry)) (segs : List Segment)
    (q : String) (rs : List SearchResult)
    (h : Index.search mem segs q = Panics.returns rs) (r : SearchResult) (hr : r ∈ rs) :
    ∃ p e, r = ⟨p, e.kind, e.last_modified, e.last_accessed⟩ ∧
      Opstamp.is_deletion e.opstamp = false ∧
      (p, e) ∈ sourceEntries mem segs ∧ isMatch q p = true ∧
      ∀ y ∈ sourceEntries mem segs, foldStr y.1 = foldStr p →
        Opstamp.sequence y.2.opstamp ≤ Opstamp.sequence e.opstamp := by
  unfold Index.search at h
  cases hsp : segsPass q segs (memPass q mem) with
  | panics m => rw [hsp] at h; cases h
  | returns cands =>
    rw [hsp] at h
    simp only [Panics.returns.injEq] at h
    subst h
    rw [List.mem_mergeSort, List.mem_filterMap] at hr
    obtain ⟨x, hx, hxr⟩ := hr
    by_cases hdel : Opstamp.is_deletion x.2.2.opstamp
    · rw [if_pos hdel] at hxr; cases hxr
    · rw [if_neg hdel] at hxr
      simp only [Option.some.injEq] at hxr
      have hc := search_cands_eq q mem segs cands hsp
      have hNK : NKCands cands := by
        rw [hc]
        exact nk_foldl _ [] (by simp [NKCands])
      have hInv : InvCands (offersOf q mem segs) cands := by
        have := inv_foldl (offersOf q mem segs) [] []
          (fun k v hv => by cases hv) (fun y hy => by cases hy)
        rw [← hc] at this
        simpa using this.1
      have hlook := candLookup_of_mem hNK hx
      obtain ⟨hfold, hmem, hdom⟩ := hInv _ _ hlook
      refine ⟨x.2.1, x.2.2, hxr.symm, (Bool.not_eq_true _) ▸ hdel,
        List.mem_of_mem_filter hmem, (List.mem_filter.mp hmem).2, ?_⟩
      intro y hy hfy
      have hmy : isMatch q y.1 = true := by
        rw [isMatch_fold_congr q hfy]
        exact (List.mem_filter.mp hmem).2
      exact hdom y (List.mem_filter.mpr ⟨hy, hmy⟩) (hfy.trans hfold)

/-- Claim C2: every result `search` returns reports, for its (folded) key, an
entry of the index state — overlay or segment — whose opstamp sequence is
maximal for that key: the result's path, kind, last_modified and
last_accessed are those of that maximal entry. -/
theorem search_latest_wins (mem : List (String × IndexEntry)) (segs : List Segment)
    (q : String) (rs : List SearchResult)
    (h : Index.search mem segs q = Panics.returns rs) (r : SearchResult) (hr : r ∈ rs) :
    ∃ pe ∈ entriesForFolded mem segs (foldStr r.path),
      pe.1 = r.path ∧ pe.2.kind = r.kind ∧ pe.2.last_modified = r.last_modified ∧
        pe.2.last_accessed = r.last_accessed ∧
        ∀ y ∈ entriesForFolded mem segs (foldStr r.path),
          Opstamp.sequence y.2.opstamp ≤ Opstamp.sequence pe.2.opstamp := by
  obtain ⟨p, e, hre, hdel, hsrc, hm, hdom⟩ := searchResult_origin mem segs q rs h r hr
  have hpath : r.path = p := by rw [hre]
  refine ⟨(p, e), ?_, hpath.symm, by rw [hre], by rw [hre], by rw [hre], ?_⟩
  · unfold entriesForFolded
    rw [List.mem_filter]
    exact ⟨hsrc, decide_eq_true (by rw [hpath])⟩
  · intro y hy
    unfold entriesForFolded at hy
    rw [List.mem_filter] at hy
    have hf : foldStr y.1 = foldStr p := by
      have := of_decide_eq_true hy.2
      rw [← hpath]
      exact this
    exact hdom y hy.1 hf

/-- Witness for `search_latest_wins` on a one-entry overlay. -/
theorem search_latest_wins_witness :
    Index.search [("a", ⟨Opstamp.insertion 3, Kind.File, 0, 7, 8⟩)] [] "" =
        Panics.returns [⟨"a", Kind.File, 7, 8⟩] ∧
      ∃ pe ∈ entriesForFolded [("a", ⟨Opstamp.insertion 3, Kind.File, 0, 7, 8⟩)] []
          (foldStr (⟨"a", Kind.File, 7, 8⟩ : SearchResult).path),
        pe.1 = (⟨"a", Kind.File, 7, 8⟩ : SearchResult).path ∧
          pe.2.kind = (⟨"a", Kind.File, 7, 8⟩ : SearchResult).kind ∧
          pe.2.last_modified = (⟨"a", Kind.File, 7, 8⟩ : SearchResult).last_modified ∧
          pe.2.last_accessed = (⟨"a", Kind.File, 7, 8⟩ : SearchResult).last_accessed ∧
          ∀ y ∈ entriesForFolded [("a", ⟨Opstamp.insertion 3, Kind.File, 0, 7, 8⟩)] []
              (foldStr (⟨"a", Kind.File, 7, 8⟩ : SearchResult).path),
            Opstamp.sequence y.2.opstamp ≤ Opstamp.sequence pe.2.opstamp := by
  have h : Index.search [("a", ⟨Opstamp.insertion 3, Kind.File, 0, 7, 8⟩)] [] "" =
      Panics.returns [⟨"a", Kind.File, 7, 8⟩] := by
    simp [Index.search, segsPass, memPass, isMatch, wordsOf, splitWsAux, matchWords,
      updCandidates, Opstamp.insertion, Opstamp.is_deletion, List.mergeSort_singleton]
  exact ⟨h, search_latest_wins _ _ _ _ h _ (by simp)⟩

/-- Claim C3: if every maximal-sequence entry recorded for the key `K` in the
index state carries the tombstone bit, no search result has path `K`, for any
query. -/
theorem search_tombstone_never_returned (mem : List (String × IndexEntry))
    (segs : List Segment) (q K : String) (rs : List SearchResult)
    (h : Index.search mem segs q = Panics.returns rs)
    (hmax : ∀ y ∈ entriesForExact mem segs K,
      (∀ z ∈ entriesForExact mem segs K,
          Opstamp.sequence z.2.opstamp ≤ Opstamp.sequence y.2.opstamp) →
        Opstamp.is_deletion y.2.opstamp = true) :
    ∀ r ∈ rs, r.path ≠ K := by
  intro r hr hpk
  obtain ⟨p, e, hre, hdel, hsrc, hm, hdom⟩ := searchResult_origin mem segs q rs h r hr
  have hp : p = K := by rw [hre] at hpk; exact hpk
  have hmem : (p, e) ∈ entriesForExact mem segs K := by
    unfold entriesForExact
    rw [List.mem_filter]
    exact ⟨hsrc, decide_eq_true hp⟩
  have hall : ∀ z ∈ entriesForExact mem segs K,
      Opstamp.sequence z.2.opstamp ≤ Opstamp.sequence e.opstamp := by
    intro z hz
    unfold entriesForExact at hz
    rw [List.mem_filter] at hz
    have hzK : z.1 = K := of_decide_eq_true hz.2
    exact hdom z hz.1 (by rw [hzK, ← hp])
  have hcontra : Opstamp.is_deletion e.opstamp = true := hmax (p, e) hmem hall
  rw [hdel] at hcontra
  cases hcontra

/-- Witness for `search_tombstone_never_returned`: a freshly tombstoned key is
not returned. -/
theorem search_tombstone_never_returned_witness :
    Index.search [("a", ⟨Opstamp.deletion 5, Kind.File, 0, 0, 0⟩)] [] "" =
        Panics.returns [] ∧
      (∀ y ∈ entriesForExact [("a", ⟨Opstamp.deletion 5, Kind.File, 0, 0, 0⟩)] [] "a",
        (∀ z ∈ entriesForExact [("a", ⟨Opstamp.deletion 5, Kind.File, 0, 0, 0⟩)] [] "a",
            Opstamp.sequence z.2.opstamp ≤ Opstamp.sequence y.2.opstamp) →
          Opstamp.is_deletion y.2.opstamp = true) ∧
      ∀ r ∈ ([] : List SearchResult), r.path ≠ "a" := by
  have h : Index.search [("a", ⟨Opstamp.deletion 5, Kind.File, 0, 0, 0⟩)] [] "" =
      Panics.returns [] := by
    simp [Index.search, segsPass, memPass, isMatch, wordsOf, splitWsAux, matchWords,
      updCandidates, Opstamp.deletion, Opstamp.is_deletion, List.mergeSort_nil]
  refine ⟨h, by decide, ?_⟩
  exact search_tombstone_never_returned _ _ _ _ _ h (by decide)

/-! ## Codec lemmas shared by the compactor and life-cycle claims -/

theorem natToLE_length (n : Nat) : ∀ k, (natToLE n k).length = n := by
  induction n with
  | zero => intro k; rfl
  | succ n ih => intro k; simp [natToLE, ih]

theorem natToLE_lt (n : Nat) : ∀ k, ∀ b ∈ natToLE n k, b < 256 := by
  induction n with
  | zero => intro k b hb; cases hb
  | succ n ih =>
    intro k b hb
    rcases List.mem_cons.mp hb with h | h
    · subst h; exact Nat.mod_lt _ (by omega)
    · exact ih _ _ h

theorem natFromLE_natToLE (n : Nat) : ∀ k, natFromLE (natToLE n k) = k % 256 ^ n := by
  induction n with
  | zero => intro k; simp [natToLE, natFromLE, Nat.mod_one]
  | succ n ih =>
    intro k
    rw [natToLE, natFromLE, ih]
    rw [show (256 : Nat) ^ (n + 1) = 256 * 256 ^ n by ring, Nat.mod_mul]

theorem natFromLE_lt (l : List Nat) (h : ∀ b ∈ l, b < 256) :
    natFromLE l < 256 ^ l.length := by
  induction l with
  | nil => simp [natFromLE]
  | cons b t ih =>
    rw [natFromLE, List.length_cons, pow_succ]
    have hb : b < 256 := h b (by simp)
    have ht := ih fun x hx => h x (by simp [hx])
    calc b + 256 * natFromLE t ≤ 255 + 256 * natFromLE t := by omega
    _ < 256 * (natFromLE t + 1) := by omega
    _ ≤ 256 * 256 ^ t.length := by
        have : natFromLE t + 1 ≤ 256 ^ t.length := ht
        omega
    _ = 256 ^ t.length * 256 := by ring

theorem encodeEntry_length (e : IndexEntry) : (encodeEntry e).length = 32 := by
  simp [encodeEntry, natToLE_length]

theorem encodeEntry_bytes_lt (e : IndexEntry) : ∀ b ∈ encodeEntry e, b < 256 := by
  intro b hb
  unfold encodeEntry at hb
  simp only [List.mem_append, List.mem_cons, List.not_mem_nil, or_false] at hb
  rcases hb with ((((h | h) | h) | h) | h) | h
  · exact natToLE_lt 8 _ b h
  · subst h; cases e.kind <;> simp [Kind.toByte]
  · rcases h with h | h | h <;> omega
  · exact natToLE_lt 4 _ b h
  · exact natToLE_lt 8 _ b h
  · exact natToLE_lt 8 _ b h

theorem kind_ofByte_toByte (k : Kind) : Kind.ofByte k.toByte = k := by
  cases k <;> rfl

/-- All four numeric fields fit their machine width. -/
def IndexEntry.Bounded (e : IndexEntry) : Prop :=
  e.opstamp < 2 ^ 64 ∧ e.content_type < 2 ^ 32 ∧
    e.last_modified < 2 ^ 64 ∧ e.last_accessed < 2 ^ 64

theorem decodeEntry_encodeEntry (e : IndexEntry) (h : e.Bounded) :
    decodeEntry (encodeEntry e) = e := by
  obtain ⟨h1, h2, h3, h4⟩ := h
  have lA : (natToLE 8 e.opstamp).length = 8 := natToLE_length 8 _
  have hE8 : encodeEntry e = natToLE 8 e.opstamp ++
      ([e.kind.toByte] ++ ([0, 0, 0] ++ (natToLE 4 e.content_type ++
        (natToLE 8 e.last_modified ++ natToLE 8 e.last_accessed)))) := by
    simp [encodeEntry]
  have hE12 : encodeEntry e = (natToLE 8 e.opstamp ++ [e.kind.toByte] ++ [0, 0, 0]) ++
      (natToLE 4 e.content_type ++ (natToLE 8 e.last_modified ++
        natToLE 8 e.last_accessed)) := by
    simp [encodeEntry]
  have hE16 : encodeEntry e = (natToLE 8 e.opstamp ++ [e.kind.toByte] ++ [0, 0, 0] ++
      natToLE 4 e.content_type) ++ (natToLE 8 e.last_modified ++
        natToLE 8 e.last_accessed) := by
    simp [encodeEntry]
  have hE24 : encodeEntry e = (natToLE 8 e.opstamp ++ [e.kind.toByte] ++ [0, 0, 0] ++
      natToLE 4 e.content_type ++ natToLE 8 e.last_modified) ++
        natToLE 8 e.last_accessed := by
    simp [encodeEntry]
  have l12 : (natToLE 8 e.opstamp ++ [e.kind.toByte] ++ [0, 0, 0]).length = 12 := by
    simp [natToLE_length]
  have l16 : (natToLE 8 e.opstamp ++ [e.kind.toByte] ++ [0, 0, 0] ++
      natToLE 4 e.content_type).length = 16 := by
    simp [natToLE_length]
  have l24 : (natToLE 8 e.opstamp ++ [e.kind.toByte] ++ [0, 0, 0] ++
      natToLE 4 e.content_type ++ natToLE 8 e.last_modified).length = 24 := by
    simp [natToLE_length]
  have f1 : natFromLE ((encodeEntry e).take 8) = e.opstamp := by
    rw [hE8, List.take_left' lA, natFromLE_natToLE]
    exact Nat.mod_eq_of_lt (by have h256 : (256 : Nat) ^ 8 = 2 ^ 64 := by norm_num
                               omega)
  have f2 : Kind.ofByte ((encodeEntry e).getD 8 0) = e.kind := by
    rw [hE8, List.getD_eq_getElem?_getD, List.getElem?_append_right (by simp [lA]), lA]
    simp [kind_ofByte_toByte]
  have f3 : natFromLE (((encodeEntry e).drop 12).take 4) = e.content_type := by
    rw [hE12, List.drop_left' l12, List.take_left' (natToLE_length 4 _), natFromLE_natToLE]
    exact Nat.mod_eq_of_lt (by have h256 : (256 : Nat) ^ 4 = 2 ^ 32 := by norm_num
                               omega)
  have f4 : natFromLE (((encodeEntry e).drop 16).take 8) = e.last_modified := by
    rw [hE16, List.drop_left' l16, List.take_left' (natToLE_length 8 _), natFromLE_natToLE]
    exact Nat.mod_eq_of_lt (by have h256 : (256 : Nat) ^ 8 = 2 ^ 64 := by norm_num
                               omega)
  have f5 : natFromLE (((encodeEntry e).drop 24).take 8) = e.last_accessed := by
    rw [hE24, List.drop_left' l24, List.take_of_length_le (le_of_eq (natToLE_length 8 _)),
      natFromLE_natToLE]
    exact Nat.mod_eq_of_lt (by have h256 : (256 : Nat) ^ 8 = 2 ^ 64 := by norm_num
                               omega)
  unfold decodeEntry
  rw [f1, f2, f3, f4, f5]

theorem decode_encode_opstamp (e : IndexEntry) :
    (decodeEntry (encodeEntry e)).opstamp = e.opstamp % 2 ^ 64 := by
  have lA : (natToLE 8 e.opstamp).length = 8 := natToLE_length 8 _
  have hE8 : encodeEntry e = natToLE 8 e.opstamp ++
      ([e.kind.toByte] ++ ([0, 0, 0] ++ (natToLE 4 e.content_type ++
        (natToLE 8 e.last_modified ++ natToLE 8 e.last_accessed)))) := by
    simp [encodeEntry]
  show natFromLE ((encodeEntry e).take 8) = e.opstamp % 2 ^ 64
  rw [hE8, List.take_left' lA, natFromLE_natToLE]
  norm_num

theorem sequence_decode_encode (e : IndexEntry) :
    Opstamp.sequence (decodeEntry (encodeEntry e)).opstamp =
      Opstamp.sequence e.opstamp := by
  rw [decode_encode_opstamp]
  unfold Opstamp.sequence
  exact Nat.mod_mod_of_dvd _ ⟨2, by norm_num⟩

theorem decodeEntry_bounded (b : List Nat) (h : ∀ x ∈ b, x < 256) :
    (decodeEntry b).Bounded := by
  have key : ∀ (l : List Nat) (n : Nat), (∀ x ∈ l, x < 256) → l.length ≤ n →
      natFromLE l < 256 ^ n := by
    intro l n hl hn
    calc natFromLE l < 256 ^ l.length := natFromLE_lt l hl
    _ ≤ 256 ^ n := Nat.pow_le_pow_right (by omega) hn
  have h8 : (256 : Nat) ^ 8 = 2 ^ 64 := by norm_num
  have h4 : (256 : Nat) ^ 4 = 2 ^ 32 := by norm_num
  refine ⟨?_, ?_, ?_, ?_⟩
  · rw [← h8]
    exact key _ 8 (fun x hx => h x (List.take_subset _ _ hx))
      (by simp [List.length_take])
  · rw [← h4]
    exact key _ 4 (fun x hx => h x (List.drop_subset _ _ (List.take_subset _ _ hx)))
      (by simp [List.length_take])
  · rw [← h8]
    exact key _ 8 (fun x hx => h x (List.drop_subset _ _ (List.take_subset _ _ hx)))
      (by simp [List.length_take])
  · rw [← h8]
    exact key _ 8 (fun x hx => h x (List.drop_subset _ _ (List.take_subset _ _ hx)))
      (by simp [List.length_take])

theorem get_entry_some_spec {s : Segment} {off : Nat} {e : IndexEntry}
    (h : s.get_entry off = .returns (some e)) :
    off % 2 ^ 64 + 32 ≤ s.data.length ∧ off % 2 ^ 64 + 32 < 2 ^ 64 ∧
      e = decodeEntry ((s.data.take (off % 2 ^ 64 + 32)).drop (off % 2 ^ 64)) := by
  unfold Segment.get_entry at h
  simp only [ENTRY_SIZE] at h
  by_cases hb : (off % 2 ^ 64 + 32) % 2 ^ 64 > s.data.length
  · rw [if_pos hb] at h; cases h
  · rw [if_neg hb] at h
    by_cases hab : off % 2 ^ 64 ≤ (off % 2 ^ 64 + 32) % 2 ^ 64
    · rw [if_pos hab] at h
      unfold IndexEntry.from_bytes at h
      simp only [ENTRY_SIZE] at h
      by_cases hlen :
          ((s.data.take ((off % 2 ^ 64 + 32) % 2 ^ 64)).drop (off % 2 ^ 64)).length = 32
      · rw [if_pos hlen] at h
        simp only [Panics.map, Panics.returns.injEq, Option.some.injEq] at h
        have hL : ((s.data.take ((off % 2 ^ 64 + 32) % 2 ^ 64)).drop (off % 2 ^ 64)).length
            = min ((off % 2 ^ 64 + 32) % 2 ^ 64) s.data.length - off % 2 ^ 64 := by
          simp [List.length_drop, List.length_take]
        rw [hL] at hlen
        have ha : off % 2 ^ 64 < 2 ^ 64 := Nat.mod_lt _ (by norm_num)
        have hstop : (off % 2 ^ 64 + 32) % 2 ^ 64 = off % 2 ^ 64 + 32 := by omega
        rw [hstop] at h
        exact ⟨by omega, by omega, h.symm⟩
      · rw [if_neg hlen] at h
        simp [Panics.map] at h
    · rw [if_neg hab] at h; cases h

theorem get_entry_some_bounded {s : Segment} {off : Nat} {e : IndexEntry}
    (h : s.get_entry off = .returns (some e)) (hwf : ∀ b ∈ s.data, b < 256) :
    e.Bounded := by
  obtain ⟨h1, h2, he⟩ := get_entry_some_spec h
  rw [he]
  exact decodeEntry_bounded _
    fun b hb => hwf b (List.take_subset _ _ (List.drop_subset _ _ hb))

theorem window_flatMapEncode (es : List IndexEntry) :
    ∀ i, 32 * i + 32 ≤ (es.flatMap encodeEntry).length →
      ∃ e ∈ es,
        ((es.flatMap encodeEntry).take (32 * i + 32)).drop (32 * i) = encodeEntry e := by
  induction es with
  | nil => intro i hi; simp at hi
  | cons e t ih =>
    intro i hi
    rw [List.flatMap_cons]
    cases i with
    | zero =>
      refine ⟨e, by simp, ?_⟩
      simp only [Nat.mul_zero, Nat.zero_add, List.drop_zero]
      exact List.take_left' (encodeEntry_length e)
    | succ j =>
      have hlen : (encodeEntry e).length = 32 := encodeEntry_length e
      have hi' : 32 * j + 32 ≤ (t.flatMap encodeEntry).length := by
        rw [List.flatMap_cons, List.length_append, hlen] at hi
        omega
      obtain ⟨e0, he0, hw⟩ := ih j hi'
      refine ⟨e0, by simp [he0], ?_⟩
      rw [List.take_append_eq_append_take, List.drop_append_eq_append_drop,
        List.take_of_length_le (by omega), List.drop_eq_nil_of_le (by omega), hlen]
      rw [show 32 * (j + 1) + 32 - 32 = 32 * j + 32 by omega,
        show 32 * (j + 1) - 32 = 32 * j by omega]
      simpa using hw

theorem get_entry_flatMapEncode {es : List IndexEntry} {s : Segment} {off : Nat}
    {e : IndexEntry} (hdata : s.data = es.flatMap encodeEntry) (hal : 32 ∣ off)
    (h : s.get_entry off = .returns (some e)) :
    ∃ e0 ∈ es, e = decodeEntry (encodeEntry e0) := by
  obtain ⟨hlen, hlt, he⟩ := get_entry_some_spec h
  have hdvd : (32 : Nat) ∣ 2 ^ 64 := ⟨2 ^ 59, by norm_num⟩
  have hal' : (32 : Nat) ∣ off % 2 ^ 64 := (Nat.dvd_mod_iff hdvd).mpr hal
  obtain ⟨i, hi⟩ := hal'
  rw [hdata] at hlen he
  rw [hi] at hlen he
  obtain ⟨e0, he0, hw⟩ := window_flatMapEncode es i (by omega)
  exact ⟨e0, he0, by rw [he, hw]⟩

theorem writeSegLoop_data (l : List (String × IndexEntry)) :
    ∀ off, (writeSegLoop l off).1 = l.flatMap fun p => encodeEntry p.2 := by
  induction l with
  | nil => intro off; rfl
  | cons p t ih =>
    intro off
    obtain ⟨k, e⟩ := p
    rw [writeSegLoop, List.flatMap_cons]
    simp only [IndexEntry.to_bytes]
    rw [ih]

theorem writeSegLoop_offsets (l : List (String × IndexEntry)) :
    ∀ off p, p ∈ (writeSegLoop l off).2 → ∃ j, p.2 = off + 32 * j := by
  induction l with
  | nil => intro off p hp; cases hp
  | cons x t ih =>
    intro off p hp
    obtain ⟨k, e⟩ := x
    rw [writeSegLoop] at hp
    rcases List.mem_cons.mp hp with h | h
    · exact ⟨0, by simp [h]⟩
    · obtain ⟨j, hj⟩ := ih (off + (e.to_bytes).length) p h
      refine ⟨j + 1, ?_⟩
      rw [hj, show (e.to_bytes).length = 32 from encodeEntry_length e]
      ring

theorem writeSegmentData_stored (l : List (String × IndexEntry))
    (ke : String × IndexEntry) (h : ke ∈ (writeSegmentData l).storedEntries) :
    ∃ p ∈ l, ke.2 = decodeEntry (encodeEntry p.2) := by
  unfold Segment.storedEntries at h
  rw [List.mem_filterMap] at h
  obtain ⟨pr, hpr, hmatch⟩ := h
  cases hg : (writeSegmentData l).get_entry pr.2 with
  | panics m => rw [hg] at hmatch; cases hmatch
  | returns oe =>
    cases oe with
    | none => rw [hg] at hmatch; cases hmatch
    | some e =>
      rw [hg] at hmatch
      simp only [Option.some.injEq] at hmatch
      have hdata : (writeSegmentData l).data = (l.map Prod.snd).flatMap encodeEntry := by
        show (writeSegLoop l 0).1 = _
        rw [writeSegLoop_data l 0, List.flatMap_map]
      have hal : (32 : Nat) ∣ pr.2 := by
        obtain ⟨j, hj⟩ := writeSegLoop_offsets l 0 pr hpr
        exact ⟨j, by omega⟩
      obtain ⟨e0, he0, hde⟩ := get_entry_flatMapEncode hdata hal hg
      obtain ⟨p0, hp0, hp0e⟩ := List.mem_map.mp he0
      exact ⟨p0, hp0, by rw [← hmatch, hde, hp0e]⟩

theorem lookup_mem {k : String} {off : Nat} :
    ∀ {pairs : List (String × Nat)}, pairs.lookup k = some off → (k, off) ∈ pairs := by
  intro pairs
  induction pairs with
  | nil => intro h; cases h
  | cons x t ih =>
    obtain ⟨k', o'⟩ := x
    intro h
    rw [List.lookup_cons] at h
    by_cases hk : k == k'
    · rw [hk] at h
      simp only at h
      cases h
      have : k = k' := by simpa using hk
      subst this
      exact List.mem_cons_self _ _
    · rw [Bool.eq_false_iff.mpr hk] at h
      simp only at h
      exact List.mem_cons_of_mem _ (ih h)

theorem unionAt_spec {segs : List Segment} {k : String} {i off : Nat}
    (h : (i, off) ∈ unionAt segs k) :
    ∃ seg, segs.get? i = some seg ∧ (k, off) ∈ seg.fst := by
  unfold unionAt at h
  rw [List.mem_filterMap] at h
  obtain ⟨⟨j, s⟩, hjs, hmap⟩ := h
  rw [Option.map_eq_some'] at hmap
  obtain ⟨o, ho, hio⟩ := hmap
  simp only [Prod.mk.injEq] at hio
  obtain ⟨rfl, rfl⟩ := hio
  obtain ⟨hjlen, hjget⟩ := List.mem_enum hjs
  refine ⟨s, ?_, lookup_mem ho⟩
  rw [List.get?_eq_getElem?, List.getElem?_eq_getElem hjlen]
  rw [hjget]

theorem pickHighest_provenance (segs : List Segment) :
    ∀ (ivs : List (Nat × Nat)) (acc : Option IndexEntry) (h' : IndexEntry),
      pickHighest segs ivs acc = .returns (some h') →
      acc = some h' ∨ ∃ i off seg, (i, off) ∈ ivs ∧ segs.get? i = some seg ∧
        seg.get_entry off = .returns (some h') := by
  intro ivs
  induction ivs with
  | nil =>
    intro acc h' h
    cases h
    exact Or.inl rfl
  | cons io t ih =>
    obtain ⟨i, off⟩ := io
    intro acc h' h
    rw [pickHighest] at h
    split at h
    · cases h
    next seg hget =>
      split at h
      · cases h
      next hge =>
        rcases ih acc h' h with h1 | ⟨i', off', seg', hm, hg', he'⟩
        · exact Or.inl h1
        · exact Or.inr ⟨i', off', seg', List.mem_cons_of_mem _ hm, hg', he'⟩
      next e hge =>
        cases acc with
        | none =>
          have h2 : pickHighest segs t (some e) = Panics.returns (some h') := h
          rcases ih (some e) h' h2 with h1 | ⟨i', off', seg', hm, hg', he'⟩
          · cases h1
            exact Or.inr ⟨i, off, seg, List.mem_cons_self _ _, hget, hge⟩
          · exact Or.inr ⟨i', off', seg', List.mem_cons_of_mem _ hm, hg', he'⟩
        | some a =>
          have h2 : pickHighest segs t
              (if Opstamp.sequence e.opstamp > Opstamp.sequence a.opstamp then some e
               else some a) = Panics.returns (some h') := h
          by_cases hcmp : Opstamp.sequence e.opstamp > Opstamp.sequence a.opstamp
          · rw [if_pos hcmp] at h2
            rcases ih (some e) h' h2 with h1 | ⟨i', off', seg', hm, hg', he'⟩
            · cases h1
              exact Or.inr ⟨i, off, seg, List.mem_cons_self _ _, hget, hge⟩
            · exact Or.inr ⟨i', off', seg', List.mem_cons_of_mem _ hm, hg', he'⟩
          · rw [if_neg hcmp] at h2
            rcases ih (some a) h' h2 with h1 | ⟨i', off', seg', hm, hg', he'⟩
            · cases h1
              exact Or.inl rfl
            · exact Or.inr ⟨i', off', seg', List.mem_cons_of_mem _ hm, hg', he'⟩

theorem mergeLoop_shape (segs : List Segment) :
    ∀ (ks : List String) (off : Nat) (d : List Nat) (f : List (String × Nat)) (n : Nat),
      32 ∣ off → mergeLoop segs ks off = .returns (d, f, n) →
      (∃ kept : List IndexEntry, d = kept.flatMap encodeEntry ∧
        ∀ e ∈ kept, ∃ k ∈ ks, pickHighest segs (unionAt segs k) none = .returns (some e)) ∧
      ∀ p ∈ f, (32 : Nat) ∣ p.2 := by
  intro ks
  induction ks with
  | nil =>
    intro off d f n hal h
    cases h
    exact ⟨⟨[], rfl, by intro e he; cases he⟩, by intro p hp; cases hp⟩
  | cons k ks ih =>
    intro off d f n hal h
    rw [mergeLoop] at h
    cases hpick : pickHighest segs (unionAt segs k) none with
    | panics m => rw [hpick] at h; cases h
    | returns v =>
      rw [hpick] at h
      cases v with
      | none =>
        obtain ⟨⟨kept, hd, hk⟩, hoff⟩ := ih off d f n hal h
        exact ⟨⟨kept, hd, fun e he =>
          (hk e he).imp fun k' hk' => ⟨List.mem_cons_of_mem _ hk'.1, hk'.2⟩⟩, hoff⟩
      | some highest =>
        have h2 : (if Opstamp.is_deletion highest.opstamp = true then mergeLoop segs ks off
            else
              match mergeLoop segs ks (off + highest.to_bytes.length) with
              | Panics.panics m => Panics.panics m
              | Panics.returns (d, f, n) =>
                  Panics.returns (highest.to_bytes ++ d, (k, off) :: f, n + 1)) =
            Panics.returns (d, f, n) := h
        by_cases hdel : Opstamp.is_deletion highest.opstamp
        · rw [if_pos hdel] at h2
          obtain ⟨⟨kept, hd, hk⟩, hoff⟩ := ih off d f n hal h2
          exact ⟨⟨kept, hd, fun e he =>
            (hk e he).imp fun k' hk' => ⟨List.mem_cons_of_mem _ hk'.1, hk'.2⟩⟩, hoff⟩
        · rw [if_neg hdel] at h2
          cases hrec : mergeLoop segs ks (off + highest.to_bytes.length) with
          | panics m => rw [hrec] at h2; cases h2
          | returns dfr =>
            obtain ⟨d', f', n'⟩ := dfr
            rw [hrec] at h2
            have h3 : Panics.returns (highest.to_bytes ++ d', (k, off) :: f', n' + 1) =
                Panics.returns (d, f, n) := h2
            simp only [Panics.returns.injEq, Prod.mk.injEq] at h3
            obtain ⟨hd, hf, hn⟩ := h3
            have hal' : (32 : Nat) ∣ off + highest.to_bytes.length := by
              rw [show highest.to_bytes.length = 32 from encodeEntry_length highest]
              exact Nat.dvd_add hal ⟨1, by omega⟩
            obtain ⟨⟨kept, hd', hk⟩, hoff⟩ := ih _ d' f' n' hal' hrec
            refine ⟨⟨highest :: kept, ?_, ?_⟩, ?_⟩
            · rw [← hd, List.flatMap_cons, hd']
              rfl
            · intro e he
              rcases List.mem_cons.mp he with he | he
              · exact ⟨k, List.mem_cons_self _ _, he ▸ hpick⟩
              · exact (hk e he).imp fun k' hk' => ⟨List.mem_cons_of_mem _ hk'.1, hk'.2⟩
            · intro p hp
              rw [← hf] at hp
              rcases List.mem_cons.mp hp with hp | hp
              · rw [hp]
                exact hal
              · exact hoff p hp

theorem get?_mem {segs : List Segment} {i : Nat} {seg : Segment}
    (h : segs.get? i = some seg) : seg ∈ segs := by
  rw [List.get?_eq_getElem?] at h
  exact List.getElem?_mem h

theorem storedEntries_mem_of_get_entry {seg : Segment} {k : String} {off : Nat}
    {e : IndexEntry} (hf : (k, off) ∈ seg.fst)
    (hg : seg.get_entry off = .returns (some e)) : (k, e) ∈ seg.storedEntries := by
  unfold Segment.storedEntries
  rw [List.mem_filterMap]
  exact ⟨(k, off), hf, by rw [hg]⟩

/-- Every entry stored in the compactor's output segment carries the opstamp
sequence of an entry stored in one of the input segments. -/
theorem merge_segments_stored (segs : List Segment) (out : Segment) (n : Nat)
    (hret : merge_segments segs = .returns (out, n)) :
    ∀ ke ∈ out.storedEntries, ∃ s ∈ segs, ∃ ke0 ∈ s.storedEntries,
      Opstamp.sequence ke.2.opstamp = Opstamp.sequence ke0.2.opstamp := by
  intro ke hke
  unfold merge_segments at hret
  cases hml : mergeLoop segs (allKeys segs) 0 with
  | panics m => rw [hml] at hret; cases hret
  | returns dfn =>
    obtain ⟨d, f, n'⟩ := dfn
    rw [hml] at hret
    simp only [Panics.returns.injEq, Prod.mk.injEq] at hret
    obtain ⟨hout, hn⟩ := hret
    obtain ⟨⟨kept, hd, hprov⟩, hoff⟩ := mergeLoop_shape segs (allKeys segs) 0 d f n'
      ⟨0, rfl⟩ hml
    unfold Segment.storedEntries at hke
    rw [List.mem_filterMap] at hke
    obtain ⟨pr, hpr, hmatch⟩ := hke
    cases hg : out.get_entry pr.2 with
    | panics m => rw [hg] at hmatch; cases hmatch
    | returns oe =>
      cases oe with
      | none => rw [hg] at hmatch; cases hmatch
      | some e =>
        rw [hg] at hmatch
        simp only [Option.some.injEq] at hmatch
        have hdata : out.data = kept.flatMap encodeEntry := by rw [← hout, hd]
        have hal : (32 : Nat) ∣ pr.2 := by
          have : pr ∈ out.fst := hpr
          rw [← hout] at this
          exact hoff pr this
        obtain ⟨e0, he0, hde⟩ := get_entry_flatMapEncode hdata hal hg
        obtain ⟨k0, hk0, hpick0⟩ := hprov e0 he0
        rcases pickHighest_provenance segs _ none e0 hpick0 with hc | ⟨i, off0, s0, hm0, hg0, he0'⟩
        · cases hc
        · obtain ⟨s0', hget0, hfst0⟩ := unionAt_spec hm0
          rw [hg0] at hget0
          simp only [Option.some.injEq] at hget0
          subst hget0
          refine ⟨s0, get?_mem hg0, ⟨_, e0⟩, storedEntries_mem_of_get_entry hfst0 he0', ?_⟩
          rw [← hmatch, hde]
          exact sequence_decode_encode e0

/-! ## Claim C5: counter freshness after a crash-free reopen -/

theorem overlayInsert_mem {m : List (String × IndexEntry)} {k : String} {e : IndexEntry}
    {p : String × IndexEntry} (h : p ∈ overlayInsert m k e) : p ∈ m ∨ p = (k, e) := by
  induction m with
  | nil => simpa [overlayInsert] using h
  | cons x t ih =>
    obtain ⟨k', e'⟩ := x
    rw [overlayInsert] at h
    by_cases hk : k' = k
    · rw [if_pos hk] at h
      rcases List.mem_cons.mp h with h | h
      · exact Or.inr h
      · exact Or.inl (List.mem_cons_of_mem _ h)
    · rw [if_neg hk] at h
      rcases List.mem_cons.mp h with h | h
      · exact Or.inl (h ▸ List.mem_cons_self _ _)
      · rcases ih h with h | h
        · exact Or.inl (List.mem_cons_of_mem _ h)
        · exact Or.inr h

theorem seq_insertion_le (c : Nat) : Opstamp.sequence (Opstamp.insertion c) ≤ c := by
  unfold Opstamp.sequence Opstamp.insertion
  calc c % 2 ^ 63 % 2 ^ 63 ≤ c % 2 ^ 63 := Nat.mod_le _ _
  _ ≤ c := Nat.mod_le _ _

theorem seq_deletion_le (c : Nat) : Opstamp.sequence (Opstamp.deletion c) ≤ c := by
  unfold Opstamp.sequence Opstamp.deletion
  rw [Nat.add_mod_right]
  calc c % 2 ^ 63 % 2 ^ 63 ≤ c % 2 ^ 63 := Nat.mod_le _ _
  _ ≤ c := Nat.mod_le _ _

/-- Invariant of the life cycle: all opstamp sequences recorded in the overlay
and in persisted segments are below the counter; `last_op`, when present,
bounds every persisted sequence strictly and never exceeds the counter; and a
directory without `last_op` has no segments. -/
def GoodState (s : IndexState) : Prop :=
  (∀ p ∈ s.overlay, Opstamp.sequence p.2.opstamp < s.counter) ∧
  (∀ ns ∈ s.disk.segments, ∀ ke ∈ Segment.storedEntries ns.2,
      Opstamp.sequence ke.2.opstamp < s.counter) ∧
  (∀ v, s.disk.lastOp = some v → v ≤ s.counter ∧
    ∀ ns ∈ s.disk.segments, ∀ ke ∈ Segment.storedEntries ns.2,
      Opstamp.sequence ke.2.opstamp < v) ∧
  (s.disk.lastOp = none → s.disk.segments = [])

theorem init_good (clock : Nat) : GoodState (openIndex ⟨[], none⟩ clock) := by
  refine ⟨?_, ?_, ?_, ?_⟩
  · intro p hp; cases hp
  · intro ns hns; cases hns
  · intro v hv; cases hv
  · intro _; rfl

theorem step_good {s s' : IndexState} (hg : GoodState s) (hstep : IndexStep s s') :
    GoodState s' := by
  obtain ⟨hov, hseg, hlast, hnone⟩ := hg
  cases hstep with
  | insert path kind lm la =>
    refine ⟨?_, ?_, ?_, ?_⟩ <;> dsimp only
    · intro p hp
      rcases overlayInsert_mem hp with hp | hp
      · exact lt_trans (hov p hp) (by omega)
      · rw [hp]
        have := seq_insertion_le s.counter
        dsimp only
        omega
    · intro ns hns ke hke
      exact lt_trans (hseg ns hns ke hke) (by omega)
    · intro v hv
      obtain ⟨h1, h2⟩ := hlast v hv
      exact ⟨by omega, h2⟩
    · exact hnone
  | delete path =>
    refine ⟨?_, ?_, ?_, ?_⟩ <;> dsimp only
    · intro p hp
      rcases overlayInsert_mem hp with hp | hp
      · exact lt_trans (hov p hp) (by omega)
      · rw [hp]
        have := seq_deletion_le s.counter
        dsimp only
        omega
    · intro ns hns ke hke
      exact lt_trans (hseg ns hns ke hke) (by omega)
    · intro v hv
      obtain ⟨h1, h2⟩ := hlast v hv
      exact ⟨by omega, h2⟩
    · exact hnone
  | commit hne =>
    have hnew : ∀ ke ∈ Segment.storedEntries
        (writeSegmentData (drainOverlay s.overlay)),
        Opstamp.sequence ke.2.opstamp < s.counter := by
      intro ke hke
      obtain ⟨p0, hp0, hp0e⟩ := writeSegmentData_stored _ ke hke
      have hp0' : p0 ∈ s.overlay := by
        unfold drainOverlay at hp0
        exact List.mem_mergeSort.mp hp0
      rw [hp0e, sequence_decode_encode]
      exact hov p0 hp0'
    refine ⟨?_, ?_, ?_, ?_⟩ <;> dsimp only
    · intro p hp; cases hp
    · intro ns hns ke hke
      rcases List.mem_append.mp hns with hns | hns
      · exact lt_trans (hseg ns hns ke hke) (by omega)
      · have hns2 : ns = (s.counter, writeSegmentData (drainOverlay s.overlay)) := by
          simpa using hns
        subst hns2
        exact lt_trans (hnew ke hke) (by omega)
    · intro v hv
      have hv2 : v = s.counter + 1 := by
        simpa using hv.symm
      subst hv2
      refine ⟨le_refl _, ?_⟩
      intro ns hns ke hke
      rcases List.mem_append.mp hns with hns | hns
      · exact lt_trans (hseg ns hns ke hke) (by omega)
      · have hns2 : ns = (s.counter, writeSegmentData (drainOverlay s.overlay)) := by
          simpa using hns
        subst hns2
        exact lt_trans (hnew ke hke) (by omega)
    · intro hv; cases hv
  | rollback =>
    refine ⟨?_, hseg, hlast, hnone⟩
    intro p hp
    cases hp
  | compact hne =>
    have hnew : ∀ (out : Segment × Nat) ke,
        merge_segments (s.disk.segments.map Prod.snd) = .returns out →
        ke ∈ Segment.storedEntries out.1 →
        Opstamp.sequence ke.2.opstamp < s.counter := by
      intro out ke hmg hke
      obtain ⟨s0, hs0, ke0, hke0, hseq⟩ :=
        merge_segments_stored _ out.1 out.2 (by rw [hmg]) ke hke
      obtain ⟨ns0, hns0, hns0e⟩ := List.mem_map.mp hs0
      rw [hseq]
      exact hseg ns0 hns0 ke0 (by rw [hns0e]; exact hke0)
    have hnewv : ∀ v, s.disk.lastOp = some v → ∀ (out : Segment × Nat) ke,
        merge_segments (s.disk.segments.map Prod.snd) = .returns out →
        ke ∈ Segment.storedEntries out.1 →
        Opstamp.sequence ke.2.opstamp < v := by
      intro v hv out ke hmg hke
      obtain ⟨s0, hs0, ke0, hke0, hseq⟩ :=
        merge_segments_stored _ out.1 out.2 (by rw [hmg]) ke hke
      obtain ⟨ns0, hns0, hns0e⟩ := List.mem_map.mp hs0
      rw [hseq]
      exact (hlast v hv).2 ns0 hns0 ke0 (by rw [hns0e]; exact hke0)
    refine ⟨?_, ?_, ?_, ?_⟩ <;> dsimp only
    · intro p hp
      exact lt_trans (hov p hp) (by omega)
    · intro ns hns ke hke
      rcases List.mem_append.mp hns with hns | hns
      · exact lt_trans (hseg ns hns ke hke) (by omega)
      · cases hmg : merge_segments (s.disk.segments.map Prod.snd) with
        | panics m =>
          rw [hmg] at hns
          have hns2 : ns ∈ ([] : List (Nat × Segment)) := hns
          cases hns2
        | returns r =>
          rw [hmg] at hns
          have hns2 : ns ∈ [(s.counter, r.1)] := hns
          have hns3 : ns = (s.counter, r.1) := by simpa using hns2
          subst hns3
          exact lt_trans (hnew r ke hmg hke) (by omega)
    · intro v hv
      obtain ⟨h1, h2⟩ := hlast v hv
      refine ⟨by omega, ?_⟩
      intro ns hns ke hke
      rcases List.mem_append.mp hns with hns | hns
      · exact h2 ns hns ke hke
      · cases hmg : merge_segments (s.disk.segments.map Prod.snd) with
        | panics m =>
          rw [hmg] at hns
          have hns2 : ns ∈ ([] : List (Nat × Segment)) := hns
          cases hns2
        | returns r =>
          rw [hmg] at hns
          have hns2 : ns ∈ [(s.counter, r.1)] := hns
          have hns3 : ns = (s.counter, r.1) := by simpa using hns2
          subst hns3
          exact hnewv v hv r ke hmg hke
    · intro hv
      exact absurd (hnone hv) hne
  | reopen clock =>
    refine ⟨?_, ?_, ?_, ?_⟩
    · intro p hp; cases hp
    · intro ns hns ke hke
      show Opstamp.sequence ke.2.opstamp < s.disk.lastOp.getD clock
      cases hlo : s.disk.lastOp with
      | none =>
        have hns2 : ns ∈ s.disk.segments := hns
        rw [hnone hlo] at hns2
        cases hns2
      | some v =>
        exact (hlast v hlo).2 ns hns ke hke
    · intro v hv
      have hv' : s.disk.lastOp = some v := hv
      refine ⟨?_, (hlast v hv').2⟩
      show v ≤ s.disk.lastOp.getD clock
      rw [hv']
      exact le_refl v
    · intro hv
      exact hnone hv

theorem reachable_good {s : IndexState} (h : ReachableIndex s) : GoodState s := by
  obtain ⟨clock, hr⟩ := h
  induction hr with
  | refl => exact init_good clock
  | tail hsteps hstep ih => exact step_good ih hstep

/-- Claim C5: after a crash-free reopen of a directory whose last commit
completed (so `last_op` is present and the counter is seeded from it, not
from the wall clock), the first sequence number the counter hands out is the
persisted `last_op` value, which is strictly greater than the sequence of
every opstamp stored in any persisted segment of the directory. -/
theorem reopen_first_seq_fresh (s : IndexState) (hs : ReachableIndex s) (v : Nat)
    (hv : s.disk.lastOp = some v) (clock : Nat) :
    (IndexState.next_op_seq (openIndex s.disk clock)).1 = v ∧
      ∀ ns ∈ s.disk.segments, ∀ ke ∈ Segment.storedEntries ns.2,
        Opstamp.sequence ke.2.opstamp < v := by
  obtain ⟨-, -, hlast, -⟩ := reachable_good hs
  constructor
  · show (openIndex s.disk clock).counter = v
    show s.disk.lastOp.getD clock = v
    rw [hv]
    rfl
  · exact (hlast v hv).2

/-- A two-step history: open an empty directory with clock 0, insert one
entry, commit. -/
def traceState1 : IndexState :=
  { counter := 1
    overlay := [("a", ⟨Opstamp.insertion 0, Kind.File, 0, 0, 0⟩)]
    disk := ⟨[], none⟩ }

/-- The state after the commit of `traceState1`. -/
def traceState2 : IndexState :=
  { counter := 2
    overlay := []
    disk := ⟨[(1, writeSegmentData (drainOverlay
        [("a", ⟨Opstamp.insertion 0, Kind.File, 0, 0, 0⟩)]))], some 2⟩ }

theorem traceStep1 : IndexStep (openIndex ⟨[], none⟩ 0) traceState1 :=
  IndexStep.insert (openIndex ⟨[], none⟩ 0) "a" Kind.File 0 0

theorem traceStep2 : IndexStep traceState1 traceState2 :=
  IndexStep.commit traceState1 (List.cons_ne_nil _ _)

theorem traceReach : ReachableIndex traceState2 :=
  ⟨0, Relation.ReflTransGen.tail (Relation.ReflTransGen.single traceStep1) traceStep2⟩

/-- Witness for `reopen_first_seq_fresh` on the two-step history. -/
theorem reopen_first_seq_fresh_witness :
    ReachableIndex traceState2 ∧ traceState2.disk.lastOp = some 2 ∧
      (IndexState.next_op_seq (openIndex traceState2.disk 7)).1 = 2 ∧
      ∀ ns ∈ traceState2.disk.segments, ∀ ke ∈ Segment.storedEntries ns.2,
        Opstamp.sequence ke.2.opstamp < 2 :=
  ⟨traceReach, rfl, (reopen_first_seq_fresh traceState2 traceReach 2 rfl 7).1,
    (reopen_first_seq_fresh traceState2 traceReach 2 rfl 7).2⟩

/-! ## Claim C4: compaction preserves semantics -/

/-- The entries the snapshot records for key `K`: per segment, the stored
entries whose key is `K` (observer used to state the claim). -/
def keyEntries (segs : List Segment) (K : String) : List IndexEntry :=
  segs.flatMap fun s => (s.storedEntries.filter fun p => p.1 = K).map Prod.snd

/-- The entries fetched by the inner compactor loop, in contributor order:
successful `get_entry` results of the group's `(segment_index, offset)`
pairs. -/
def fetchedEntries (segs : List Segment) (ivs : List (Nat × Nat)) : List IndexEntry :=
  ivs.filterMap fun io =>
    match segs.get? io.1 with
    | some seg =>
      match seg.get_entry io.2 with
      | .returns (some e) => some e
      | _ => none
    | none => none

/-- One step of the `highest_opstamp` accumulation: keep the incoming entry
only when its opstamp sequence is strictly greater. -/
def pickStep : Option IndexEntry → IndexEntry → Option IndexEntry
  | none, e => some e
  | some h, e =>
    if Opstamp.sequence e.opstamp > Opstamp.sequence h.opstamp then some e else some h

theorem pickHighest_eq_fold (segs : List Segment) :
    ∀ (ivs : List (Nat × Nat)) (acc : Option IndexEntry) (v : Option IndexEntry),
      pickHighest segs ivs acc = .returns v →
      v = (fetchedEntries segs ivs).foldl pickStep acc := by
  intro ivs
  induction ivs with
  | nil =>
    intro acc v h
    cases h
    rfl
  | cons io t ih =>
    obtain ⟨i, off⟩ := io
    intro acc v h
    rw [pickHighest] at h
    split at h
    · cases h
    next seg hget =>
      have hfe : fetchedEntries segs ((i, off) :: t) =
          (match seg.get_entry off with
           | .returns (some e) => some e
           | _ => none).toList.append (fetchedEntries segs t) := by
        unfold fetchedEntries
        rw [List.filterMap_cons]
        simp only [hget]
        cases seg.get_entry off with
        | panics m => rfl
        | returns oe => cases oe <;> rfl
      split at h
      · cases h
      next hge =>
        rw [hfe, hge]
        simpa using ih acc v h
      next e hge =>
        rw [hfe, hge]
        cases acc with
        | none =>
          have h2 : pickHighest segs t (some e) = Panics.returns v := h
          simpa [pickStep] using ih (some e) v h2
        | some a =>
          have h2 : pickHighest segs t
              (if Opstamp.sequence e.opstamp > Opstamp.sequence a.opstamp then some e
               else some a) = Panics.returns v := h
          simpa [pickStep] using ih _ v h2

theorem pickFold_spec (es : List IndexEntry) :
    ∀ (acc : Option IndexEntry) (h : IndexEntry), es.foldl pickStep acc = some h →
      (acc = some h ∨ h ∈ es) ∧
        (∀ e ∈ es, Opstamp.sequence e.opstamp ≤ Opstamp.sequence h.opstamp) ∧
        (∀ a, acc = some a → Opstamp.sequence a.opstamp ≤ Opstamp.sequence h.opstamp) := by
  induction es with
  | nil =>
    intro acc h hf
    refine ⟨Or.inl hf, ?_, ?_⟩
    · intro e he; cases he
    · intro a ha
      rw [ha] at hf
      cases hf
      exact le_refl _
  | cons e t ih =>
    intro acc h hf
    rw [List.foldl_cons] at hf
    obtain ⟨ih1, ih2, ih3⟩ := ih (pickStep acc e) h hf
    have hstep : ∀ a, pickStep acc e = some a →
        (a = e ∨ acc = some a) ∧ Opstamp.sequence e.opstamp ≤ Opstamp.sequence a.opstamp := by
      intro a ha
      cases acc with
      | none =>
        cases ha
        exact ⟨Or.inl rfl, le_refl _⟩
      | some b =>
        rw [pickStep] at ha
        by_cases hc : Opstamp.sequence e.opstamp > Opstamp.sequence b.opstamp
        · rw [if_pos hc] at ha
          cases ha
          exact ⟨Or.inl rfl, le_refl _⟩
        · rw [if_neg hc] at ha
          cases ha
          exact ⟨Or.inr rfl, le_of_not_lt hc⟩
    have hsome : ∃ a, pickStep acc e = some a := by
      cases acc with
      | none => exact ⟨e, rfl⟩
      | some b =>
        rw [pickStep]
        by_cases hc : Opstamp.sequence e.opstamp > Opstamp.sequence b.opstamp
        · exact ⟨e, by rw [if_pos hc]⟩
        · exact ⟨b, by rw [if_neg hc]⟩
    obtain ⟨a, ha⟩ := hsome
    obtain ⟨hao, hae⟩ := hstep a ha
    have hah : Opstamp.sequence a.opstamp ≤ Opstamp.sequence h.opstamp := ih3 a ha
    refine ⟨?_, ?_, ?_⟩
    · rcases ih1 with h1 | h1
      · rw [ha] at h1
        cases h1
        rcases hao with h2 | h2
        · exact Or.inr (h2 ▸ List.mem_cons_self _ _)
        · exact Or.inl h2
      · exact Or.inr (List.mem_cons_of_mem _ h1)
    · intro x hx
      rcases List.mem_cons.mp hx with hx | hx
      · rw [hx]
        exact le_trans hae hah
      · exact ih2 x hx
    · intro b hb
      cases acc with
      | none => cases hb
      | some b' =>
        cases hb
        rw [pickStep] at ha
        by_cases hc : Opstamp.sequence e.opstamp > Opstamp.sequence b.opstamp
        · rw [if_pos hc] at ha
          cases ha
          exact le_trans (le_of_lt hc) hah
        · rw [if_neg hc] at ha
          cases ha
          exact hah

theorem pickFold_isSome (es : List IndexEntry) :
    ∀ acc : Option IndexEntry, es ≠ [] ∨ acc.isSome →
      (es.foldl pickStep acc).isSome := by
  induction es with
  | nil =>
    intro acc h
    rcases h with h | h
    · exact absurd rfl h
    · exact h
  | cons e t ih =>
    intro acc h
    rw [List.foldl_cons]
    refine ih _ (Or.inr ?_)
    cases acc with
    | none => rfl
    | some b =>
      rw [pickStep]
      by_cases hc : Opstamp.sequence e.opstamp > Opstamp.sequence b.opstamp
      · rw [if_pos hc]; rfl
      · rw [if_neg hc]; rfl

/-- What the union stream contributes for key `K` from one segment: the entry
at the FST's offset for `K`, if the key is present and the read succeeds. -/
def segGroup (K : String) (s : Segment) : Option IndexEntry :=
  match s.fst.lookup K with
  | some off =>
    match s.get_entry off with
    | .returns (some e) => some e
    | _ => none
  | none => none

theorem storedLike_key_mem (s : Segment) (pairs : List (String × Nat))
    (a : String × IndexEntry)
    (ha : a ∈ pairs.filterMap fun p =>
      match s.get_entry p.2 with
      | .returns (some e) => some (p.1, e)
      | _ => none) : a.1 ∈ pairs.map Prod.fst := by
  rw [List.mem_filterMap] at ha
  obtain ⟨p, hp, hm⟩ := ha
  cases hg : s.get_entry p.2 with
  | panics m => rw [hg] at hm; cases hm
  | returns oe =>
    cases oe with
    | none => rw [hg] at hm; cases hm
    | some e =>
      rw [hg] at hm
      cases hm
      exact List.mem_map.mpr ⟨p, hp, rfl⟩

theorem perSeg_filter (s : Segment) (K : String) :
    ∀ pairs : List (String × Nat), (pairs.map Prod.fst).Nodup →
      (((pairs.filterMap fun p =>
          match s.get_entry p.2 with
          | .returns (some e) => some (p.1, e)
          | _ => none).filter fun p => p.1 = K).map Prod.snd) =
        (match pairs.lookup K with
         | some off =>
           match s.get_entry off with
           | .returns (some e) => [e]
           | _ => []
         | none => []) := by
  intro pairs
  induction pairs with
  | nil => intro _; rfl
  | cons pr t ih =>
    obtain ⟨k0, off0⟩ := pr
    intro hnd
    have hnd' : (t.map Prod.fst).Nodup := (List.nodup_cons.mp hnd).2
    rw [List.filterMap_cons, List.lookup_cons]
    by_cases hk : K = k0
    · subst hk
      have hnotin : K ∉ t.map Prod.fst := by
        have := (List.nodup_cons.mp hnd).1
        simpa using this
      have hrest : ((t.filterMap fun p =>
          match s.get_entry p.2 with
          | .returns (some e) => some (p.1, e)
          | _ => none).filter fun p => p.1 = K) = [] := by
        rw [List.filter_eq_nil_iff]
        intro a ha hcontra
        have hamem := storedLike_key_mem s t a ha
        rw [of_decide_eq_true hcontra] at hamem
        exact hnotin hamem
      simp only [beq_self_eq_true]
      cases hg : s.get_entry (K, off0).2 with
      | panics m =>
        simp only [hg, hrest]
        rfl
      | returns oe =>
        cases oe with
        | none =>
          simp only [hg, hrest]
          rfl
        | some e =>
          simp only [hg]
          rw [List.filter_cons, if_pos (by simp), hrest]
          rfl
    · have hbeq : (K == k0) = false := by
        simpa using hk
      simp only [hbeq]
      cases hg : s.get_entry (k0, off0).2 with
      | panics m =>
        simp only [hg]
        exact ih hnd'
      | returns oe =>
        cases oe with
        | none =>
          simp only [hg]
          exact ih hnd'
        | some e =>
          simp only [hg]
          rw [List.filter_cons,
            if_neg (by simp only [decide_eq_true_eq]; intro hh; exact hk hh.symm)]
          exact ih hnd'

theorem enumFrom_filterMap_snd {α β : Type} (G : α → Option β) :
    ∀ (l : List α) (n : Nat),
      (List.enumFrom n l).filterMap (fun p => G p.2) = l.filterMap G := by
  intro l
  induction l with
  | nil => intro n; rfl
  | cons a t ih =>
    intro n
    rw [List.enumFrom_cons, List.filterMap_cons, List.filterMap_cons]
    dsimp only
    cases hga : G a with
    | none =>
      simp only [hga]
      exact ih (n + 1)
    | some b =>
      simp only [hga]
      rw [ih (n + 1)]

/-- For each key of the union stream, the entries fetched by the inner
compactor loop are exactly the stored entries under that key, in segment
order, provided each segment's FST has no duplicate keys. -/
theorem fetched_unionAt (segs : List Segment)
    (hnd : ∀ s ∈ segs, (s.fst.map Prod.fst).Nodup) (K : String) :
    fetchedEntries segs (unionAt segs K) = keyEntries segs K := by
  unfold fetchedEntries unionAt
  rw [List.filterMap_filterMap]
  have hcong : ∀ p ∈ segs.enum,
      (((p.2.fst.lookup K).map fun off => (p.1, off)).bind fun io =>
        match segs.get? io.1 with
        | some seg =>
          match seg.get_entry io.2 with
          | .returns (some e) => some e
          | _ => none
        | none => none) = segGroup K p.2 := by
    intro p hp
    obtain ⟨i, s⟩ := p
    have hgeti : segs.get? i = some s := by
      rw [List.get?_eq_getElem?]
      exact List.mem_enum_iff_getElem?.mp hp
    unfold segGroup
    cases hlk : s.fst.lookup K with
    | none => rfl
    | some off =>
      show (match segs.get? i with
        | some seg =>
          match seg.get_entry off with
          | .returns (some e) => some e
          | _ => none
        | none => none) = _
      rw [hgeti]
  have henum : segs.enum = List.enumFrom 0 segs := rfl
  rw [List.filterMap_congr hcong, henum, enumFrom_filterMap_snd (segGroup K) segs 0]
  unfold keyEntries
  have hmain : ∀ ss : List Segment, (∀ s ∈ ss, (s.fst.map Prod.fst).Nodup) →
      ss.filterMap (segGroup K) =
        ss.flatMap fun s => (s.storedEntries.filter fun p => p.1 = K).map Prod.snd := by
    intro ss
    induction ss with
    | nil => intro _; rfl
    | cons s t ih =>
      intro h
      rw [List.filterMap_cons, List.flatMap_cons,
        ← ih fun x hx => h x (List.mem_cons_of_mem _ hx)]
      have hps := perSeg_filter s K s.fst (h s (List.mem_cons_self _ _))
      unfold Segment.storedEntries
      rw [hps]
      unfold segGroup
      cases hlk : s.fst.lookup K with
      | none => rfl
      | some off =>
        cases hg : s.get_entry off with
        | panics m => simp only [hg]; rfl
        | returns oe =>
          cases oe with
          | none => simp only [hg]; rfl
          | some e => simp only [hg]; rfl
  exact hmain segs hnd

/-- The per-key outcome of the merge loop: for each key in order, the
surviving highest-opstamp entry when it exists and is not a tombstone. -/
def keptOf (segs : List Segment) : List String → Panics (List (String × IndexEntry))
  | [] => .returns []
  | k :: ks =>
    match pickHighest segs (unionAt segs k) none with
    | .panics m => .panics m
    | .returns none => keptOf segs ks
    | .returns (some highest) =>
      if Opstamp.is_deletion highest.opstamp then keptOf segs ks
      else
        match keptOf segs ks with
        | .panics m => .panics m
        | .returns l => .returns ((k, highest) :: l)

/-- The FST pairs produced when the kept entries are laid out consecutively
starting at `base`: each entry occupies `ENTRY_SIZE` bytes. -/
def offsetsFrom : List (String × IndexEntry) → Nat → List (String × Nat)
  | [], _ => []
  | (k, _) :: t, base => (k, base) :: offsetsFrom t (base + ENTRY_SIZE)

theorem mergeLoop_keptOf (segs : List Segment) :
    ∀ (ks : List String) (off : Nat) (d : List Nat) (f : List (String × Nat)) (n : Nat),
      mergeLoop segs ks off = .returns (d, f, n) →
      ∃ l, keptOf segs ks = .returns l ∧
        d = l.flatMap (fun p => encodeEntry p.2) ∧
        f = offsetsFrom l off ∧ n = l.length := by
  intro ks
  induction ks with
  | nil =>
    intro off d f n h
    rw [mergeLoop] at h
    cases h
    exact ⟨[], rfl, rfl, rfl, rfl⟩
  | cons k ks ih =>
    intro off d f n h
    rw [mergeLoop] at h
    cases hpick : pickHighest segs (unionAt segs k) none with
    | panics m =>
      rw [hpick] at h
      cases h
    | returns ohi =>
      rw [hpick] at h
      cases ohi with
      | none =>
        have h2 : mergeLoop segs ks off = .returns (d, f, n) := h
        obtain ⟨l, hl, hd, hf, hn⟩ := ih off d f n h2
        refine ⟨l, ?_, hd, hf, hn⟩
        rw [keptOf, hpick]
        exact hl
      | some highest =>
        have h2 : (if Opstamp.is_deletion highest.opstamp then mergeLoop segs ks off
            else match mergeLoop segs ks (off + highest.to_bytes.length) with
              | .panics m => .panics m
              | .returns (d0, f0, n0) =>
                .returns (highest.to_bytes ++ d0, (k, off) :: f0, n0 + 1)) =
            .returns (d, f, n) := h
        by_cases hdel : Opstamp.is_deletion highest.opstamp
        · rw [if_pos hdel] at h2
          obtain ⟨l, hl, hd, hf, hn⟩ := ih off d f n h2
          refine ⟨l, ?_, hd, hf, hn⟩
          rw [keptOf, hpick]
          show (if Opstamp.is_deletion highest.opstamp then keptOf segs ks
              else match keptOf segs ks with
                | .panics m => .panics m
                | .returns l => .returns ((k, highest) :: l)) = _
          rw [if_pos hdel]
          exact hl
        · rw [if_neg hdel] at h2
          cases hrec : mergeLoop segs ks (off + highest.to_bytes.length) with
          | panics m =>
            rw [hrec] at h2
            cases h2
          | returns t =>
            obtain ⟨d0, f0, n0⟩ := t
            rw [hrec] at h2
            cases h2
            obtain ⟨l, hl, hd, hf, hn⟩ := ih _ d0 f0 n0 hrec
            have hlen : (highest.to_bytes).length = ENTRY_SIZE := encodeEntry_length highest
            rw [hlen] at hf
            refine ⟨(k, highest) :: l, ?_, ?_, ?_, ?_⟩
            · rw [keptOf, hpick]
              show (if Opstamp.is_deletion highest.opstamp then keptOf segs ks
                  else match keptOf segs ks with
                    | .panics m => .panics m
                    | .returns l => .returns ((k, highest) :: l)) = _
              rw [if_neg hdel, hl]
            · rw [List.flatMap_cons, ← hd]
              rfl
            · rw [hf]
              rfl
            · rw [hn]
              rfl

theorem keptOf_mem (segs : List Segment) :
    ∀ (ks : List String) (l : List (String × IndexEntry)),
      keptOf segs ks = .returns l →
      ∀ p ∈ l, pickHighest segs (unionAt segs p.1) none = .returns (some p.2) ∧
        Opstamp.is_deletion p.2.opstamp = false := by
  intro ks
  induction ks with
  | nil =>
    intro l hl p hp
    rw [keptOf] at hl
    cases hl
    cases hp
  | cons k ks ih =>
    intro l hl p hp
    rw [keptOf] at hl
    cases hpick : pickHighest segs (unionAt segs k) none with
    | panics m =>
      rw [hpick] at hl
      cases hl
    | returns ohi =>
      rw [hpick] at hl
      cases ohi with
      | none => exact ih l hl p hp
      | some highest =>
        have h2 : (if Opstamp.is_deletion highest.opstamp then keptOf segs ks
            else match keptOf segs ks with
              | .panics m => .panics m
              | .returns l0 => .returns ((k, highest) :: l0)) = .returns l := hl
        by_cases hdel : Opstamp.is_deletion highest.opstamp
        · rw [if_pos hdel] at h2
          exact ih l h2 p hp
        · rw [if_neg hdel] at h2
          cases hrec : keptOf segs ks with
          | panics m =>
            rw [hrec] at h2
            cases h2
          | returns l0 =>
            rw [hrec] at h2
            cases h2
            rcases List.mem_cons.mp hp with h | h
            · subst h
              exact ⟨hpick, Bool.eq_false_iff.mpr hdel⟩
            · exact ih l0 hrec p h

theorem keptOf_pick (segs : List Segment) :
    ∀ (ks : List String) (l : List (String × IndexEntry)),
      keptOf segs ks = .returns l →
      ∀ k ∈ ks, ∃ oh, pickHighest segs (unionAt segs k) none = .returns oh := by
  intro ks
  induction ks with
  | nil =>
    intro l _ k hk
    cases hk
  | cons k0 ks ih =>
    intro l hl k hk
    rw [keptOf] at hl
    cases hpick : pickHighest segs (unionAt segs k0) none with
    | panics m =>
      rw [hpick] at hl
      cases hl
    | returns ohi =>
      rcases List.mem_cons.mp hk with hk0 | hk0
      · exact ⟨ohi, hk0 ▸ hpick⟩
      · rw [hpick] at hl
        cases ohi with
        | none => exact ih l hl k hk0
        | some highest =>
          have h2 : (if Opstamp.is_deletion highest.opstamp then keptOf segs ks
              else match keptOf segs ks with
                | .panics m => .panics m
                | .returns l0 => .returns ((k0, highest) :: l0)) = .returns l := hl
          by_cases hdel : Opstamp.is_deletion highest.opstamp
          · rw [if_pos hdel] at h2
            exact ih l h2 k hk0
          · rw [if_neg hdel] at h2
            cases hrec : keptOf segs ks with
            | panics m =>
              rw [hrec] at h2
              cases h2
            | returns l0 => exact ih l0 hrec k hk0

theorem keptOf_complete (segs : List Segment) :
    ∀ (ks : List String) (l : List (String × IndexEntry)),
      keptOf segs ks = .returns l →
      ∀ k ∈ ks, ∀ e, pickHighest segs (unionAt segs k) none = .returns (some e) →
        Opstamp.is_deletion e.opstamp = false → (k, e) ∈ l := by
  intro ks
  induction ks with
  | nil =>
    intro l _ k hk
    cases hk
  | cons k0 ks ih =>
    intro l hl k hk e hpk hdel
    rw [keptOf] at hl
    rcases List.mem_cons.mp hk with hk0 | hk0
    · subst hk0
      rw [hpk] at hl
      have h2 : (if Opstamp.is_deletion e.opstamp then keptOf segs ks
          else match keptOf segs ks with
            | .panics m => .panics m
            | .returns l0 => .returns ((k, e) :: l0)) = .returns l := hl
      rw [if_neg (by simp [hdel])] at h2
      cases hrec : keptOf segs ks with
      | panics m =>
        rw [hrec] at h2
        cases h2
      | returns l0 =>
        rw [hrec] at h2
        cases h2
        exact List.mem_cons_self _ _
    · cases hpick : pickHighest segs (unionAt segs k0) none with
      | panics m =>
        rw [hpick] at hl
        cases hl
      | returns ohi =>
        rw [hpick] at hl
        cases ohi with
        | none => exact ih l hl k hk0 e hpk hdel
        | some highest =>
          have h2 : (if Opstamp.is_deletion highest.opstamp then keptOf segs ks
              else match keptOf segs ks with
                | .panics m => .panics m
                | .returns l0 => .returns ((k0, highest) :: l0)) = .returns l := hl
          by_cases hdel0 : Opstamp.is_deletion highest.opstamp
          · rw [if_pos hdel0] at h2
            exact ih l h2 k hk0 e hpk hdel
          · rw [if_neg hdel0] at h2
            cases hrec : keptOf segs ks with
            | panics m =>
              rw [hrec] at h2
              cases h2
            | returns l0 =>
              rw [hrec] at h2
              cases h2
              exact List.mem_cons_of_mem _ (ih l0 hrec k hk0 e hpk hdel)

theorem keptOf_length (segs : List Segment) :
    ∀ (ks : List String) (l : List (String × IndexEntry)),
      keptOf segs ks = .returns l → l.length ≤ ks.length := by
  intro ks
  induction ks with
  | nil =>
    intro l hl
    rw [keptOf] at hl
    cases hl
    exact Nat.le_refl 0
  | cons k0 ks ih =>
    intro l hl
    rw [keptOf] at hl
    cases hpick : pickHighest segs (unionAt segs k0) none with
    | panics m =>
      rw [hpick] at hl
      cases hl
    | returns ohi =>
      rw [hpick] at hl
      cases ohi with
      | none => exact Nat.le_succ_of_le (ih l hl)
      | some highest =>
        have h2 : (if Opstamp.is_deletion highest.opstamp then keptOf segs ks
            else match keptOf segs ks with
              | .panics m => .panics m
              | .returns l0 => .returns ((k0, highest) :: l0)) = .returns l := hl
        by_cases hdel : Opstamp.is_deletion highest.opstamp
        · rw [if_pos hdel] at h2
          exact Nat.le_succ_of_le (ih l h2)
        · rw [if_neg hdel] at h2
          cases hrec : keptOf segs ks with
          | panics m =>
            rw [hrec] at h2
            cases h2
          | returns l0 =>
            rw [hrec] at h2
            cases h2
            rw [List.length_cons, List.length_cons]
            exact Nat.succ_le_succ (ih l0 hrec)

theorem flatMapEncode_length (l : List (String × IndexEntry)) :
    (l.flatMap fun p => encodeEntry p.2).length = 32 * l.length := by
  induction l with
  | nil => rfl
  | cons p t ih =>
    rw [List.flatMap_cons, List.length_append, encodeEntry_length, ih, List.length_cons]
    ring

theorem offsetsFrom_mem (l : List (String × IndexEntry)) :
    ∀ base k o, (k, o) ∈ offsetsFrom l base → ∃ h, (k, h) ∈ l := by
  induction l with
  | nil =>
    intro base k o ho
    cases ho
  | cons p t ih =>
    intro base k o ho
    obtain ⟨k0, e0⟩ := p
    rw [offsetsFrom] at ho
    rcases List.mem_cons.mp ho with h | h
    · exact ⟨e0, by rw [Prod.mk.injEq] at h; rw [h.1]; exact List.mem_cons_self _ _⟩
    · obtain ⟨h0, hh⟩ := ih (base + ENTRY_SIZE) k o h
      exact ⟨h0, List.mem_cons_of_mem _ hh⟩

theorem offsetsFrom_read (l : List (String × IndexEntry)) :
    ∀ base k e, (k, e) ∈ l →
      ∃ j, (k, base + 32 * j) ∈ offsetsFrom l base ∧
        (((l.flatMap fun p => encodeEntry p.2).take (32 * j + 32)).drop (32 * j)) =
          encodeEntry e ∧
        32 * j + 32 ≤ (l.flatMap fun p => encodeEntry p.2).length := by
  induction l with
  | nil =>
    intro base k e he
    cases he
  | cons p t ih =>
    intro base k e he
    obtain ⟨k0, e0⟩ := p
    rw [List.flatMap_cons]
    have hlen0 : (encodeEntry (k0, e0).2).length = 32 := encodeEntry_length _
    rcases List.mem_cons.mp he with h | h
    · rw [Prod.mk.injEq] at h
      refine ⟨0, ?_, ?_, ?_⟩
      · rw [offsetsFrom]
        simp only [Nat.mul_zero, Nat.add_zero]
        rw [h.1]
        exact List.mem_cons_self _ _
      · simp only [Nat.mul_zero, Nat.zero_add, List.drop_zero]
        rw [← h.2]
        exact List.take_left' hlen0
      · rw [List.length_append, hlen0]
        omega
    · obtain ⟨j, hmem, hw, hle⟩ := ih (base + ENTRY_SIZE) k e h
      refine ⟨j + 1, ?_, ?_, ?_⟩
      · rw [offsetsFrom]
        refine List.mem_cons_of_mem _ ?_
        rw [show base + 32 * (j + 1) = base + ENTRY_SIZE + 32 * j by
          simp [ENTRY_SIZE]; ring]
        exact hmem
      · rw [List.take_append_eq_append_take, List.drop_append_eq_append_drop,
          List.take_of_length_le (by omega), List.drop_eq_nil_of_le (by omega), hlen0]
        rw [show 32 * (j + 1) + 32 - 32 = 32 * j + 32 by omega,
          show 32 * (j + 1) - 32 = 32 * j by omega]
        simpa using hw
      · rw [List.length_append, hlen0]
        omega

theorem keyEntries_origin {segs : List Segment} {K : String} {e : IndexEntry}
    (he : e ∈ keyEntries segs K) :
    ∃ s ∈ segs, ∃ off, s.get_entry off = .returns (some e) := by
  unfold keyEntries at he
  rw [List.mem_flatMap] at he
  obtain ⟨s, hs, hmem⟩ := he
  rw [List.mem_map] at hmem
  obtain ⟨p, hp, hpe⟩ := hmem
  have hp' := (List.mem_filter.mp hp).1
  unfold Segment.storedEntries at hp'
  rw [List.mem_filterMap] at hp'
  obtain ⟨q, _, hmatch⟩ := hp'
  cases hg : s.get_entry q.2 with
  | panics m =>
    rw [hg] at hmatch
    cases hmatch
  | returns oe =>
    cases oe with
    | none =>
      rw [hg] at hmatch
      cases hmatch
    | some e0 =>
      rw [hg] at hmatch
      cases hmatch
      refine ⟨s, hs, q.2, ?_⟩
      have hpe' : e0 = e := hpe
      rw [hg, hpe']

theorem keyEntries_bounded {segs : List Segment} {K : String} {e : IndexEntry}
    (he : e ∈ keyEntries segs K) (hwf : ∀ s ∈ segs, ∀ b ∈ s.data, b < 256) :
    e.Bounded := by
  obtain ⟨s, hs, off, hg⟩ := keyEntries_origin he
  exact get_entry_some_bounded hg (hwf s hs)

theorem keyEntries_key {segs : List Segment} {K : String} {e : IndexEntry}
    (he : e ∈ keyEntries segs K) : ∃ s ∈ segs, K ∈ s.fst.map Prod.fst := by
  unfold keyEntries at he
  rw [List.mem_flatMap] at he
  obtain ⟨s, hs, hmem⟩ := he
  rw [List.mem_map] at hmem
  obtain ⟨p, hp, _⟩ := hmem
  have hfilter := List.mem_filter.mp hp
  have hkey : p.1 = K := of_decide_eq_true hfilter.2
  have hmemf : p.1 ∈ s.fst.map Prod.fst := by
    have hp' := hfilter.1
    unfold Segment.storedEntries at hp'
    exact storedLike_key_mem s s.fst p hp'
  exact ⟨s, hs, hkey ▸ hmemf⟩

theorem mem_allKeys {segs : List Segment} {K : String}
    (h : ∃ s ∈ segs, K ∈ s.fst.map Prod.fst) : K ∈ allKeys segs := by
  unfold allKeys
  have hperm := List.mergeSort_perm
    ((segs.flatMap fun s => s.fst.map Prod.fst).dedup) (fun a b => decide (a ≤ b))
  rw [hperm.mem_iff, List.mem_dedup, List.mem_flatMap]
  exact h

/-- **C4.** Compaction preserves semantics: for any snapshot of segments on
which `merge_segments` returns (well-formed: duplicate-free FST keys, byte
data, and a key count small enough that offsets cannot wrap), and any key `K`
whose highest-opstamp-sequence entry `e` across the snapshot is unique: if
`e` is not a tombstone then `K` appears in the output segment mapped to an
offset at which `get_entry` returns exactly `e`, and if `e` is a tombstone
then `K` is absent from the output segment's FST. -/
theorem merge_preserves_semantics (segs : List Segment) (out : Segment) (n : Nat)
    (hret : merge_segments segs = .returns (out, n))
    (hnd : ∀ s ∈ segs, (s.fst.map Prod.fst).Nodup)
    (hwf : ∀ s ∈ segs, ∀ b ∈ s.data, b < 256)
    (hcount : 32 * (allKeys segs).length < 2 ^ 64)
    (K : String) (e : IndexEntry) (hmem : e ∈ keyEntries segs K)
    (hmax : ∀ e' ∈ keyEntries segs K, e' ≠ e →
      Opstamp.sequence e'.opstamp < Opstamp.sequence e.opstamp) :
    (Opstamp.is_deletion e.opstamp = false →
      ∃ o, (K, o) ∈ out.fst ∧ out.get_entry o = .returns (some e)) ∧
    (Opstamp.is_deletion e.opstamp = true → K ∉ out.fst.map Prod.fst) := by
  unfold merge_segments at hret
  cases hml : mergeLoop segs (allKeys segs) 0 with
  | panics m =>
    rw [hml] at hret
    cases hret
  | returns t =>
    obtain ⟨d, f, n0⟩ := t
    rw [hml] at hret
    cases hret
    obtain ⟨l, hkept, hd, hf, hn⟩ := mergeLoop_keptOf segs (allKeys segs) 0 d f n hml
    have hkall : K ∈ allKeys segs := mem_allKeys (keyEntries_key hmem)
    obtain ⟨oh, hoh⟩ := keptOf_pick segs (allKeys segs) l hkept K hkall
    have hfold := pickHighest_eq_fold segs (unionAt segs K) none oh hoh
    rw [fetched_unionAt segs hnd K] at hfold
    have hsome : oh.isSome := by
      rw [hfold]
      exact pickFold_isSome _ none
        (Or.inl (by intro hnil; rw [hnil] at hmem; cases hmem))
    obtain ⟨h0, hh0⟩ := Option.isSome_iff_exists.mp hsome
    rw [hh0] at hfold hoh
    obtain ⟨horig, hmax0, _⟩ := pickFold_spec (keyEntries segs K) none h0 hfold.symm
    have hh0mem : h0 ∈ keyEntries segs K := by
      rcases horig with h | h
      · cases h
      · exact h
    have hhe : h0 = e := by
      by_contra hne
      exact absurd (hmax h0 hh0mem hne) (Nat.not_lt.mpr (hmax0 e hmem))
    subst hhe
    constructor
    · intro hdelF
      have hkeptmem : (K, h0) ∈ l :=
        keptOf_complete segs (allKeys segs) l hkept K hkall h0 hoh hdelF
      obtain ⟨j, hjm, hwin, hjl⟩ := offsetsFrom_read l 0 K h0 hkeptmem
      have hdlen : (l.flatMap fun p => encodeEntry p.2).length = 32 * l.length :=
        flatMapEncode_length l
      have hlk : l.length ≤ (allKeys segs).length := keptOf_length segs _ l hkept
      have h64 : 0 + 32 * j + ENTRY_SIZE < 2 ^ 64 := by
        have h32 : ENTRY_SIZE = 32 := rfl
        omega
      refine ⟨0 + 32 * j, by rw [hf]; exact hjm, ?_⟩
      have hle : 0 + 32 * j + ENTRY_SIZE ≤ (⟨f, d⟩ : Segment).data.length := by
        dsimp only
        have h32 : ENTRY_SIZE = 32 := rfl
        rw [hd]
        omega
      have hmain := (get_entry_total_helper ⟨f, d⟩ (0 + 32 * j) h64).1 hle
      have hwin' : (((⟨f, d⟩ : Segment).data.take (0 + 32 * j + ENTRY_SIZE)).drop
          (0 + 32 * j)) = encodeEntry h0 := by
        dsimp only
        rw [hd, show 0 + 32 * j + ENTRY_SIZE = 32 * j + 32 from by
            have h32 : ENTRY_SIZE = 32 := rfl
            omega,
          show 0 + 32 * j = 32 * j from by omega]
        exact hwin
      rw [hwin', decodeEntry_encodeEntry h0 (keyEntries_bounded hmem hwf)] at hmain
      exact hmain.2
    · intro hdelT hKmem
      rw [List.mem_map] at hKmem
      obtain ⟨p, hp, hp1⟩ := hKmem
      rw [hf] at hp
      obtain ⟨h1, hh1⟩ := offsetsFrom_mem l 0 p.1 p.2 (by
        have : (p.1, p.2) = p := rfl
        rw [this]
        exact hp)
      rw [hp1] at hh1
      obtain ⟨hpk, hdel1⟩ := keptOf_mem segs (allKeys segs) l hkept (K, h1) hh1
      have hinj : h1 = h0 := by
        have := hoh.symm.trans hpk
        cases this
        rfl
      rw [hinj] at hdel1
      rw [hdel1] at hdelT
      cases hdelT

/-- Concrete inputs exercising `merge_segments` on a one-segment snapshot. -/
def mergeWitEntry : IndexEntry := ⟨3, Kind.File, 0, 7, 8⟩

def mergeWitSeg : Segment := ⟨[("a", 0)], encodeEntry mergeWitEntry⟩

def mergeWitOut : Segment := ⟨[("a", 0)], encodeEntry mergeWitEntry⟩

theorem allKeys_mergeWitSeg : allKeys [mergeWitSeg] = ["a"] := by
  unfold allKeys mergeWitSeg
  rw [List.flatMap_cons, List.flatMap_nil]
  simp only [List.map_cons, List.map_nil, List.append_nil]
  rw [show ["a"].dedup = ["a"] from rfl, List.mergeSort_singleton]

theorem merge_preserves_semantics_witness :
    ∃ o, ("a", o) ∈ mergeWitOut.fst ∧
      mergeWitOut.get_entry o = Panics.returns (some mergeWitEntry) := by
  have hret : merge_segments [mergeWitSeg] = .returns (mergeWitOut, 1) := by
    unfold merge_segments
    rw [allKeys_mergeWitSeg]
    decide
  exact (merge_preserves_semantics [mergeWitSeg] mergeWitOut 1 hret
    (by intro s hs; rw [List.mem_singleton] at hs; subst hs; decide)
    (by intro s hs; rw [List.mem_singleton] at hs; subst hs; decide)
    (by rw [allKeys_mergeWitSeg]; decide)
    "a" mergeWitEntry (by decide) (by decide)).1 (by decide)
